import Mathlib

/-!
# Verification of the versioned KV secrets engine core

A shallow embedding of the versioned key/value secrets backend
(`vault-plugin-secrets-kv`): per-key version metadata, the `AddVersion`
retention algorithm, the data/delete/undelete/destroy/subkeys request
handlers, the upgrade gate, and the TTL `deletionTime` computation, with
theorems about version lifecycle, CAS checking, retention trimming,
idempotence and storage-write ordering.

Machine integers are modelled as `Nat` with explicit wrap-around
(`% 2^64`, `% 2^32`) where the Go source performs unsigned arithmetic.
Go maps from version numbers to metadata are modelled as association
lists whose insert operation removes any previous binding, and wall-clock
times (`time.Time`, `timestamp.Timestamp`) are modelled as `Int` values
passed in explicitly (`now`), with `nil` timestamp pointers as `none`.
-/

/-- 2^64: modulus of Go `uint64` arithmetic. -/
def U64 : Nat := 18446744073709551616

/-- 2^32: modulus of Go `uint32` arithmetic. -/
def U32 : Nat := 4294967296

/-- `defaultMaxVersions uint32 = 10` from backend.go: the number of versions
kept when neither the key metadata nor the config sets a maximum. -/
def defaultMaxVersions : Nat := 10

/-- `var maxSubkeysDepth = 100` from path_subkeys.go: the depth cap of the
subkeys traversal. -/
def maxSubkeysDepth : Nat := 100

/-- `VersionMetadata`: per-version record.  `deletionTime` is the field
called `ArchiveTime` in the older snapshots (path_data.go, path_archive.go)
and `DeletionTime` in the newer ones (path_subkeys.go); both are the same
nullable timestamp slot. -/
structure VersionMetadata where
  createdTime : Option Int
  deletionTime : Option Int
  destroyed : Bool
deriving Repr, DecidableEq

/-- The Go `map[uint64]*VersionMetadata` of a key's versions, as an
association list (insertion keeps keys duplicate-free). -/
abbrev VMap := List (Nat × VersionMetadata)

/-- Map read `k.Versions[verNum]` (`nil` for a missing key becomes `none`). -/
def VMap.lookupV (m : VMap) (key : Nat) : Option VersionMetadata :=
  match m with
  | [] => none
  | (k, v) :: rest => if k = key then some v else VMap.lookupV rest key

/-- Go `delete(k.Versions, i)`: remove the binding for `key`. -/
def VMap.eraseV : VMap → Nat → VMap
  | [], _ => []
  | (k, v) :: rest, key =>
    if k = key then VMap.eraseV rest key else (k, v) :: VMap.eraseV rest key

/-- Map write `k.Versions[key] = v`: bind `key` to `v`, dropping any
previous binding. -/
def VMap.insertV (m : VMap) (key : Nat) (v : VersionMetadata) : VMap :=
  (key, v) :: m.eraseV key

/-- In-place mutation through a looked-up pointer (`lv.Destroyed = true`,
`lv.ArchiveTime = ...`): replace the value bound to `key`, keeping the
binding order. -/
def VMap.updateV : VMap → Nat → VersionMetadata → VMap
  | [], _, _ => []
  | (k, v0) :: rest, key, v =>
    if k = key then (key, v) :: VMap.updateV rest key v
    else (k, v0) :: VMap.updateV rest key v

/-- `KeyMetadata`: the per-key record (proto zero values: counters `0`,
timestamps `nil`, booleans `false`, empty map). -/
structure KeyMetadata where
  key : String
  versions : VMap
  currentVersion : Nat
  oldestVersion : Nat
  createdTime : Option Int
  updatedTime : Option Int
  maxVersions : Nat
  casRequired : Bool
  customMetadata : List (String × String)
deriving Repr, DecidableEq

/-- The `KeyMetadata` synthesized by a write when no record exists yet
(`&KeyMetadata{Key: key, Versions: map[uint64]*VersionMetadata{}}`). -/
def emptyMeta (key : String) : KeyMetadata :=
  { key := key
    versions := []
    currentVersion := 0
    oldestVersion := 0
    createdTime := none
    updatedTime := none
    maxVersions := 0
    casRequired := false
    customMetadata := [] }

/-- Backend `Configuration`: `max_versions`, `cas_required`,
`delete_version_after` (duration in nanoseconds). -/
structure Configuration where
  maxVersions : Nat
  casRequired : Bool
  deleteVersionAfter : Int
deriving Repr, DecidableEq

/-- The `maxVersions` switch inside `AddVersion`: the per-key
`MaxVersions` when non-zero, else the config value when positive, else
`defaultMaxVersions`. -/
def effectiveMaxVersions (metaMax configMax : Nat) : Nat :=
  if metaMax ≠ 0 then metaMax
  else if configMax > 0 then configMax
  else defaultMaxVersions

/-- `KeyMetadata.AddVersion(createdTime, archiveTime, configMaxVersions)`
from path_data.go: bump `CurrentVersion`, insert the new version's
metadata, stamp `UpdatedTime`/`CreatedTime`, then trim every version in
`[OldestVersion, CurrentVersion - maxVersions]` when the retained window
exceeds the effective `maxVersions`.  Returns the updated record and the
returned `versionToDelete` (0 when nothing is trimmed). -/
def KeyMetadata.addVersion (k : KeyMetadata) (createdTime deletionTime : Option Int)
    (configMaxVersions : Nat) : KeyMetadata × Nat :=
  let cur := (k.currentVersion + 1) % U64
  let versions := k.versions.insertV cur
    { createdTime := createdTime, deletionTime := deletionTime, destroyed := false }
  let k1 : KeyMetadata :=
    { k with
      currentVersion := cur
      versions := versions
      updatedTime := createdTime
      createdTime := if k.createdTime = none then createdTime else k.createdTime }
  let maxVersions : Nat := effectiveMaxVersions k.maxVersions configMaxVersions
  if (cur + U64 - k.oldestVersion) % U64 % U32 ≥ maxVersions then
    let versionToDelete := (cur + U64 - maxVersions) % U64
    let versions2 :=
      (List.range' k.oldestVersion (versionToDelete + 1 - k.oldestVersion)).foldl
        VMap.eraseV versions
    ({ k1 with versions := versions2, oldestVersion := (versionToDelete + 1) % U64 },
      versionToDelete)
  else
    (k1, 0)

/-- A JSON value as decoded from a version payload
(`map[string]interface{}` after `json.Unmarshal`). -/
inductive JValue where
  | null
  | bool (b : Bool)
  | num (n : Int)
  | str (s : String)
  | arr (elems : List JValue)
  | obj (fields : List (String × JValue))
deriving Repr

/-- A decoded JSON object (`map[string]interface{}`), as an ordered
association list. -/
abbrev JObj := List (String × JValue)

/-- The composite Go test `vm.ArchiveTime != nil &&
archiveTime.Before(time.Now())`: a deletion/archive timestamp is set and
lies strictly in the past. -/
def deletedAt (ts : Option Int) (now : Int) : Bool :=
  match ts with
  | some t => t < now
  | none => false

/-- Storage mutations a handler performs for one logical key, in program
order: a version-blob `Put`, the metadata `Put` through
`writeKeyMetadata`, a version-blob `Delete`. -/
inductive StorageEvent where
  | putVersion (v : Nat)
  | putMetadata
  | deleteVersion (v : Nat)
deriving Repr, DecidableEq

/-- Outcome of `pathDataWrite`: the three user-error returns and the
success response (whose `version` field is `meta.CurrentVersion` after
`AddVersion`). -/
inductive WriteOutcome where
  | errNoData
  | errCasRequired
  | errCasMismatch
  | ok (meta : KeyMetadata) (respVersion : Nat)
deriving Repr, DecidableEq

/-- `pathDataWrite` from path_data.go: marshal `data` (error when absent),
load-or-synthesize the key metadata, run the CAS switch, put the new
version blob at `CurrentVersion+1`, `AddVersion`, write the metadata back,
and delete the trim-target blob when `AddVersion` returned one.  The event
list records the storage mutations in program order; error returns mutate
nothing. -/
def pathDataWrite (config : Configuration) (key : String) (meta0 : Option KeyMetadata)
    (dataArg : Option JObj) (casArg : Option Nat) (now : Int) :
    WriteOutcome × List StorageEvent :=
  match dataArg with
  | none => (.errNoData, [])
  | some _d =>
    let meta := meta0.getD (emptyMeta key)
    let proceed : WriteOutcome × List StorageEvent :=
      let newVer := (meta.currentVersion + 1) % U64
      let av := meta.addVersion (some now) none config.maxVersions
      (.ok av.1 av.1.currentVersion,
        .putVersion newVer :: .putMetadata ::
          (if av.2 > 0 then [.deleteVersion av.2] else []))
    match casArg with
    | none =>
      if config.casRequired ∨ meta.casRequired then (.errCasRequired, [])
      else proceed
    | some cas =>
      if cas ≠ meta.currentVersion then (.errCasMismatch, [])
      else proceed

/-- The user-facing metadata block a data read responds with:
`{version, created_time, archive_time, destroyed}`. -/
structure DataRespMeta where
  version : Nat
  createdTime : Option Int
  archiveTime : Option Int
  destroyed : Bool
deriving Repr, DecidableEq

/-- Result of `pathDataRead`: empty response for a missing key or version,
404-with-metadata for archived/destroyed versions, the version's data on
success, or the hard `"could not find version"` error for a missing
blob. -/
inductive DataReadResult where
  | empty
  | notFound (body : DataRespMeta)
  | ok (md : DataRespMeta) (data : JObj)
  | errCouldNotFindVersion

/-- `pathDataRead` from path_data.go.  `blobs` is the version-blob store
for this key (`nil` = `none`). -/
def pathDataRead (meta0 : Option KeyMetadata) (verParam : Option Nat) (now : Int)
    (blobs : Nat → Option JObj) : DataReadResult :=
  match meta0 with
  | none => .empty
  | some meta =>
    let verNum := match verParam with
      | some v => v
      | none => meta.currentVersion
    match meta.versions.lookupV verNum with
    | none => .empty
    | some vm =>
      let md : DataRespMeta :=
        { version := verNum
          createdTime := vm.createdTime
          archiveTime := vm.deletionTime
          destroyed := vm.destroyed }
      if deletedAt vm.deletionTime now then .notFound md
      else if vm.destroyed then .notFound md
      else match blobs verNum with
        | none => .errCouldNotFindVersion
        | some d => .ok md d

/-- `pathDataDelete` from path_data.go: stamp the current version's
archive/deletion time with `now` when it is live; no-op when the key or
current version is missing, destroyed, or already past its deletion
time. -/
def pathDataDelete (meta0 : Option KeyMetadata) (now : Int) :
    Option KeyMetadata × List StorageEvent :=
  match meta0 with
  | none => (none, [])
  | some meta =>
    match meta.versions.lookupV meta.currentVersion with
    | none => (some meta, [])
    | some lv =>
      if lv.destroyed then (some meta, [])
      else if deletedAt lv.deletionTime now then (some meta, [])
      else
        (some { meta with
            versions := meta.versions.updateV meta.currentVersion
              { lv with deletionTime := some now } },
          [.putMetadata])

/-- Result of the `delete/<k>` (archive) and `undelete/<k>` (unarchive)
handlers. -/
inductive VersionsResult where
  | errNoVersionProvided
  | ok (meta : Option KeyMetadata) (events : List StorageEvent)
deriving Repr, DecidableEq

/-- One iteration of the `pathArchiveWrite` loop: skip a missing,
destroyed, or already-past-deletion version, otherwise stamp its
deletion/archive time with `now`. -/
def archiveStep (now : Int) (m : VMap) (verNum : Nat) : VMap :=
  match m.lookupV verNum with
  | none => m
  | some lv =>
    if lv.destroyed then m
    else if deletedAt lv.deletionTime now then m
    else m.updateV verNum { lv with deletionTime := some now }

/-- `pathArchiveWrite` (the `delete/<k>` handler) from path_archive.go. -/
def pathArchiveWrite (now : Int) (versions : List Nat) (meta0 : Option KeyMetadata) :
    VersionsResult :=
  if versions.length = 0 then .errNoVersionProvided
  else match meta0 with
    | none => .ok none []
    | some meta =>
      .ok (some { meta with versions := versions.foldl (archiveStep now) meta.versions })
        [.putMetadata]

/-- One iteration of the `pathUnarchiveWrite` loop: skip a missing or
destroyed version, otherwise clear its deletion/archive time to nil. -/
def unarchiveStep (m : VMap) (verNum : Nat) : VMap :=
  match m.lookupV verNum with
  | none => m
  | some lv =>
    if lv.destroyed then m
    else m.updateV verNum { lv with deletionTime := none }

/-- `pathUnarchiveWrite` (the `undelete/<k>` handler) from
path_archive.go. -/
def pathUnarchiveWrite (versions : List Nat) (meta0 : Option KeyMetadata) :
    VersionsResult :=
  if versions.length = 0 then .errNoVersionProvided
  else match meta0 with
    | none => .ok none []
    | some meta =>
      .ok (some { meta with versions := versions.foldl unarchiveStep meta.versions })
        [.putMetadata]

/-- The storage state of one logical key: its metadata record and the set
of version numbers whose blobs exist. -/
structure KeyState where
  meta : Option KeyMetadata
  blobs : Finset Nat
deriving DecidableEq

/-- One iteration of the `pathDestroyWrite` metadata loop: skip a missing
or already-destroyed version, otherwise set `Destroyed = true`. -/
def destroyStep (m : VMap) (verNum : Nat) : VMap :=
  match m.lookupV verNum with
  | none => m
  | some lv =>
    if lv.destroyed then m
    else m.updateV verNum { lv with destroyed := true }

/-- Result of `pathDestroyWrite`: the key's state afterwards, the storage
events in program order, and whether the empty-`versions` user error was
returned. -/
structure DestroyResult where
  state : KeyState
  events : List StorageEvent
  errEmpty : Bool
deriving DecidableEq

/-- `pathDestroyWrite` from path_destroy.go: flag each listed live version
destroyed, write the metadata record back, then delete each listed
version's blob. -/
def pathDestroyWrite (versions : List Nat) (s : KeyState) : DestroyResult :=
  if versions.length = 0 then ⟨s, [], true⟩
  else match s.meta with
    | none => ⟨s, [], false⟩
    | some meta =>
      let meta' := { meta with versions := versions.foldl destroyStep meta.versions }
      ⟨{ meta := some meta'
         blobs := versions.foldl (fun bs v => bs.erase v) s.blobs },
        .putMetadata :: versions.map (fun v => .deleteVersion v),
        false⟩

/-- The error string `upgradeCheck` actually returns while the upgrade
gate is armed. -/
def upgradeInProcessMsg : String := "Can not handle request while upgrade is in process"

/-- The transient error string the repository's upgrade tests
(upgrade_test.go) require user traffic to receive while an upgrade is
running. -/
def upgradeTransientMsg : String :=
  "Upgrading from non-versioned to versioned data. This backend will be unavailable for a brief period and will resume service shortly."

/-- Result of the `upgradeCheck` wrapper around a handler. -/
inductive GateResult (β : Type) where
  | rejected (msg : String)
  | passed (r : β)
deriving Repr

/-- `upgradeCheck` from upgrade.go: reject every request with an error
response while the atomic `upgrading` flag is 1, otherwise invoke the
wrapped handler unchanged. -/
def upgradeCheck {α β : Type} (upgrading : Nat) (next : α → β) (req : α) : GateResult β :=
  if upgrading = 1 then .rejected upgradeInProcessMsg else .passed (next req)

/-- The per-key conversion `upgradeKey` inside `Upgrade` (upgrade.go):
synthesize a fresh `KeyMetadata`, put the version-1 blob, `AddVersion`,
then write the metadata.  Returns the metadata record, the version number
written, and the storage events in program order. -/
def upgradeKey (key : String) (now : Int) : KeyMetadata × Nat × List StorageEvent :=
  let meta := emptyMeta key
  let newVer := (meta.currentVersion + 1) % U64
  let av := meta.addVersion (some now) none 1
  (av.1, newVer, [.putVersion newVer, .putMetadata])

/-- The user-facing metadata block `pathSubkeysRead` responds with:
`{version, created_time, deletion_time, destroyed, custom_metadata}`. -/
structure SubkeysRespMeta where
  version : Nat
  createdTime : Option Int
  deletionTime : Option Int
  destroyed : Bool
  customMetadata : List (String × String)
deriving Repr, DecidableEq

/-- Result of `pathSubkeysRead`.  `notFound` carries the response body the
handler passed to `logical.RespondWithStatusCode`: the metadata block in
the past-deletion-time branch, or `none` in the destroyed branch, which
passes a nil response. -/
inductive SubkeysResult where
  | empty
  | notFound (body : Option SubkeysRespMeta)
  | ok (md : SubkeysRespMeta) (subkeys : JObj)
  | errCouldNotFindVersionData

/-- The recursive `walk` closure of `removeValues` (path_subkeys.go),
specialized to walking the fields of a map: a nested non-empty map within
the depth cap is walked at `depth+1`; every other value — non-map, empty
map, or map beyond `maxSubkeysDepth` — is replaced by null. -/
def walkPairs : List (String × JValue) → Nat → List (String × JValue)
  | [], _ => []
  | (k, JValue.obj inner) :: rest, depth =>
    (k, if depth + 1 ≤ maxSubkeysDepth ∧ 0 < inner.length
        then JValue.obj (walkPairs inner (depth + 1))
        else JValue.null) :: walkPairs rest depth
  | (k, _) :: rest, depth => (k, JValue.null) :: walkPairs rest depth

/-- `removeValues(input)` from path_subkeys.go: `walk(input, 1)`. -/
def removeValues (input : JObj) : JObj := walkPairs input 1

/-- `pathSubkeysRead` from path_subkeys.go.  `versionParam` is the `version`
field (0 when absent); `blobs` is the version-blob store for this key. -/
def pathSubkeysRead (meta0 : Option KeyMetadata) (versionParam : Int) (now : Int)
    (blobs : Nat → Option JObj) : SubkeysResult :=
  match meta0 with
  | none => .empty
  | some meta =>
    let versionNum := if versionParam > 0 then versionParam.toNat else meta.currentVersion
    match meta.versions.lookupV versionNum with
    | none => .empty
    | some vm =>
      let md : SubkeysRespMeta :=
        { version := versionNum
          createdTime := vm.createdTime
          deletionTime := vm.deletionTime
          destroyed := vm.destroyed
          customMetadata := meta.customMetadata }
      if deletedAt vm.deletionTime now then .notFound (some md)
      else if vm.destroyed then .notFound none
      else match blobs versionNum with
        | none => .errCouldNotFindVersionData
        | some d => .ok md (removeValues d)

/-- `deletionTime(creation, mount, meta, data)` from version_ttl.go: the
creation time plus the minimum non-zero of the mount-config, key-metadata
and per-version durations; `none` when all three are zero. -/
def deletionTime (creation : Int) (mount meta data : Int) : Option Int :=
  if mount = 0 ∧ meta = 0 ∧ data = 0 then none
  else
    let m1 : Int := if data ≠ 0 then data else 0
    let m2 : Int := if (meta ≠ 0 ∧ meta < m1) ∨ m1 = 0 then meta else m1
    let m3 : Int := if (mount ≠ 0 ∧ mount < m2) ∨ m2 = 0 then mount else m2
    some (creation + m3)

/-- Specification-side helper for the amended TTL claim: the minimum of
the non-zero entries of a duration list, `none` when every entry is
zero. -/
def minNonZeroDur : List Int → Option Int
  | [] => none
  | x :: rest =>
    let r := minNonZeroDur rest
    if x = 0 then r
    else match r with
      | none => some x
      | some y => some (min x y)

/-- A user operation on a single logical key, with the wall-clock time and
request arguments each handler reads. -/
inductive KVOp where
  | dataWrite (dataArg : Option JObj) (casArg : Option Nat) (now : Int)
  | dataRead (verParam : Option Nat) (now : Int)
  | dataDelete (now : Int)
  | archiveVersions (versions : List Nat) (now : Int)
  | unarchiveVersions (versions : List Nat)
  | destroyVersions (versions : List Nat)
  | subkeysRead (versionParam : Int) (now : Int)

/-- Run one operation's handler against a key's metadata record, returning
the record afterwards and, for a successful data write, the `version`
field of the response. -/
def applyOp (config : Configuration) (key : String) (op : KVOp)
    (m : Option KeyMetadata) : Option KeyMetadata × Option Nat :=
  match op with
  | .dataWrite dataArg casArg now =>
    match (pathDataWrite config key m dataArg casArg now).1 with
    | .ok meta' v => (some meta', some v)
    | _ => (m, none)
  | .dataRead _ _ => (m, none)
  | .subkeysRead _ _ => (m, none)
  | .dataDelete now => ((pathDataDelete m now).1, none)
  | .archiveVersions versions now =>
    match pathArchiveWrite now versions m with
    | .errNoVersionProvided => (m, none)
    | .ok m' _ => (m', none)
  | .unarchiveVersions versions =>
    match pathUnarchiveWrite versions m with
    | .errNoVersionProvided => (m, none)
    | .ok m' _ => (m', none)
  | .destroyVersions versions =>
    ((pathDestroyWrite versions ⟨m, ∅⟩).state.meta, none)

/-- Run a sequence of operations against a key's metadata record. -/
def runOps (config : Configuration) (key : String) (ops : List KVOp)
    (m : Option KeyMetadata) : Option KeyMetadata :=
  ops.foldl (fun m op => (applyOp config key op m).1) m

/-- `CurrentVersion` of a possibly-absent metadata record (0 before the
first write, matching the synthesized empty record). -/
def curOf (m : Option KeyMetadata) : Nat :=
  match m with
  | none => 0
  | some meta => meta.currentVersion

/-! ## Association-list map lemmas -/

/-- The keys of a version map, in binding order. -/
def VMap.keysOf (m : VMap) : List Nat := m.map Prod.fst

theorem VMap.lookupV_eraseV (m : VMap) (k j : Nat) :
    (m.eraseV k).lookupV j = if j = k then none else m.lookupV j := by
  induction m with
  | nil => simp [VMap.eraseV, VMap.lookupV]
  | cons kv rest ih =>
    obtain ⟨a, v⟩ := kv
    by_cases hak : a = k
    · rw [show VMap.eraseV ((a, v) :: rest) k = VMap.eraseV rest k from by
        simp [VMap.eraseV, hak], ih]
      by_cases hjk : j = k
      · simp [hjk]
      · have hja : ¬ a = j := by omega
        simp [hjk, VMap.lookupV, hja]
    · rw [show VMap.eraseV ((a, v) :: rest) k = (a, v) :: VMap.eraseV rest k from by
        simp [VMap.eraseV, hak]]
      by_cases haj : a = j
      · have hjk : ¬ j = k := by omega
        simp [VMap.lookupV, haj, hjk]
      · simp [VMap.lookupV, haj, ih]

theorem VMap.lookupV_insertV (m : VMap) (k : Nat) (v : VersionMetadata) (j : Nat) :
    (m.insertV k v).lookupV j = if j = k then some v else m.lookupV j := by
  simp only [VMap.insertV, VMap.lookupV]
  by_cases hkj : k = j
  · simp [hkj]
  · have hjk : ¬ j = k := by omega
    simp [hkj, hjk, VMap.lookupV_eraseV]

theorem VMap.lookupV_updateV (m : VMap) (k : Nat) (v : VersionMetadata) (j : Nat) :
    (m.updateV k v).lookupV j =
      if j = k then (m.lookupV k).map (fun _ => v) else m.lookupV j := by
  induction m with
  | nil => simp [VMap.updateV, VMap.lookupV]
  | cons kv rest ih =>
    obtain ⟨a, v0⟩ := kv
    by_cases hak : a = k
    · rw [show VMap.updateV ((a, v0) :: rest) k v = (k, v) :: VMap.updateV rest k v from by
        simp [VMap.updateV, hak]]
      by_cases hjk : j = k
      · simp [VMap.lookupV, hjk, hak]
      · have hja : ¬ a = j := by omega
        have hkj : ¬ k = j := by omega
        simp [VMap.lookupV, hjk, hja, hkj, ih]
    · rw [show VMap.updateV ((a, v0) :: rest) k v = (a, v0) :: VMap.updateV rest k v from by
        simp [VMap.updateV, hak]]
      by_cases hjk : j = k
      · subst hjk
        have hja : ¬ a = j := hak
        simp [VMap.lookupV, hja, hak, ih]
      · simp [VMap.lookupV, hjk, ih]

theorem VMap.mem_eraseV (m : VMap) (k : Nat) (kv : Nat × VersionMetadata) :
    kv ∈ m.eraseV k ↔ kv ∈ m ∧ kv.1 ≠ k := by
  induction m with
  | nil => simp [VMap.eraseV]
  | cons kv0 rest ih =>
    obtain ⟨a, v⟩ := kv0
    by_cases hak : a = k
    · rw [show VMap.eraseV ((a, v) :: rest) k = VMap.eraseV rest k from by
        simp [VMap.eraseV, hak], ih]
      subst hak
      constructor
      · rintro ⟨h1, h2⟩
        exact ⟨List.mem_cons_of_mem _ h1, h2⟩
      · rintro ⟨h1, h2⟩
        rcases List.mem_cons.1 h1 with rfl | h3
        · exact absurd rfl h2
        · exact ⟨h3, h2⟩
    · rw [show VMap.eraseV ((a, v) :: rest) k = (a, v) :: VMap.eraseV rest k from by
        simp [VMap.eraseV, hak]]
      simp only [List.mem_cons, ih]
      constructor
      · rintro (rfl | ⟨h2, h3⟩)
        · exact ⟨Or.inl rfl, hak⟩
        · exact ⟨Or.inr h2, h3⟩
      · rintro ⟨rfl | h2, h3⟩
        · exact Or.inl rfl
        · exact Or.inr ⟨h2, h3⟩

theorem VMap.mem_insertV (m : VMap) (k : Nat) (v : VersionMetadata)
    (kv : Nat × VersionMetadata) :
    kv ∈ m.insertV k v ↔ kv = (k, v) ∨ (kv ∈ m ∧ kv.1 ≠ k) := by
  simp [VMap.insertV, VMap.mem_eraseV, List.mem_cons]

theorem VMap.mem_updateV (m : VMap) (k : Nat) (v : VersionMetadata)
    (kv : Nat × VersionMetadata) (h : kv ∈ m.updateV k v) :
    kv ∈ m ∨ kv = (k, v) := by
  induction m with
  | nil => simp [VMap.updateV] at h
  | cons kv0 rest ih =>
    obtain ⟨a, v0⟩ := kv0
    by_cases hak : a = k
    · rw [show VMap.updateV ((a, v0) :: rest) k v = (k, v) :: VMap.updateV rest k v from by
        simp [VMap.updateV, hak]] at h
      rcases List.mem_cons.1 h with rfl | h2
      · exact Or.inr rfl
      · rcases ih h2 with h3 | h3
        · exact Or.inl (List.mem_cons_of_mem _ h3)
        · exact Or.inr h3
    · rw [show VMap.updateV ((a, v0) :: rest) k v = (a, v0) :: VMap.updateV rest k v from by
        simp [VMap.updateV, hak]] at h
      rcases List.mem_cons.1 h with rfl | h2
      · exact Or.inl (List.mem_cons_self _ _)
      · rcases ih h2 with h3 | h3
        · exact Or.inl (List.mem_cons_of_mem _ h3)
        · exact Or.inr h3

theorem VMap.keysOf_updateV (m : VMap) (k : Nat) (v : VersionMetadata) :
    (m.updateV k v).keysOf = m.keysOf := by
  induction m with
  | nil => rfl
  | cons kv0 rest ih =>
    obtain ⟨a, v0⟩ := kv0
    by_cases hak : a = k
    · rw [show VMap.updateV ((a, v0) :: rest) k v = (k, v) :: VMap.updateV rest k v from by
        simp [VMap.updateV, hak]]
      simp only [VMap.keysOf, List.map_cons] at ih ⊢
      exact by rw [ih, hak]
    · rw [show VMap.updateV ((a, v0) :: rest) k v = (a, v0) :: VMap.updateV rest k v from by
        simp [VMap.updateV, hak]]
      simp only [VMap.keysOf, List.map_cons] at ih ⊢
      rw [ih]

theorem VMap.length_updateV (m : VMap) (k : Nat) (v : VersionMetadata) :
    (m.updateV k v).length = m.length := by
  have h := congrArg List.length (VMap.keysOf_updateV m k v)
  simpa [VMap.keysOf] using h

theorem VMap.sublist_eraseV (m : VMap) (k : Nat) : List.Sublist (m.eraseV k) m := by
  induction m with
  | nil => simp [VMap.eraseV]
  | cons kv0 rest ih =>
    obtain ⟨a, v⟩ := kv0
    by_cases hak : a = k
    · rw [show VMap.eraseV ((a, v) :: rest) k = VMap.eraseV rest k from by
        simp [VMap.eraseV, hak]]
      exact ih.cons (a, v)
    · rw [show VMap.eraseV ((a, v) :: rest) k = (a, v) :: VMap.eraseV rest k from by
        simp [VMap.eraseV, hak]]
      exact ih.cons₂ (a, v)

theorem VMap.mem_keysOf (m : VMap) (j : Nat) :
    j ∈ m.keysOf ↔ ∃ v, (j, v) ∈ m := by
  simp only [VMap.keysOf, List.mem_map]
  constructor
  · rintro ⟨⟨a, v⟩, hm, rfl⟩; exact ⟨v, hm⟩
  · rintro ⟨v, hm⟩; exact ⟨(j, v), hm, rfl⟩

theorem VMap.nodup_keysOf_eraseV (m : VMap) (k : Nat) (h : m.keysOf.Nodup) :
    (m.eraseV k).keysOf.Nodup :=
  h.sublist ((VMap.sublist_eraseV m k).map Prod.fst)

theorem VMap.nodup_keysOf_insertV (m : VMap) (k : Nat) (v : VersionMetadata)
    (h : m.keysOf.Nodup) : (m.insertV k v).keysOf.Nodup := by
  simp only [VMap.insertV, VMap.keysOf, List.map_cons, List.nodup_cons]
  refine ⟨?_, VMap.nodup_keysOf_eraseV m k h⟩
  intro hmem
  rw [show (m.eraseV k).map Prod.fst = (m.eraseV k).keysOf from rfl, VMap.mem_keysOf] at hmem
  obtain ⟨v0, hv0⟩ := hmem
  exact ((VMap.mem_eraseV m k (k, v0)).1 hv0).2 rfl

theorem VMap.lookupV_foldl_eraseV (l : List Nat) (m : VMap) (j : Nat) :
    (l.foldl VMap.eraseV m).lookupV j = if j ∈ l then none else m.lookupV j := by
  induction l generalizing m with
  | nil => simp
  | cons x rest ih =>
    simp only [List.foldl_cons, ih, VMap.lookupV_eraseV]
    by_cases hjx : j = x
    · simp [hjx]
    · simp [hjx, List.mem_cons]

theorem VMap.mem_foldl_eraseV (l : List Nat) (m : VMap) (kv : Nat × VersionMetadata) :
    kv ∈ l.foldl VMap.eraseV m ↔ kv ∈ m ∧ kv.1 ∉ l := by
  induction l generalizing m with
  | nil => simp
  | cons x rest ih =>
    simp only [List.foldl_cons, ih, VMap.mem_eraseV, List.mem_cons]
    tauto

theorem VMap.nodup_keysOf_foldl_eraseV (l : List Nat) (m : VMap)
    (h : m.keysOf.Nodup) : (l.foldl VMap.eraseV m).keysOf.Nodup := by
  induction l generalizing m with
  | nil => exact h
  | cons x rest ih => exact ih _ (VMap.nodup_keysOf_eraseV m x h)

theorem VMap.length_le_of_bounded (m : VMap) (a b : Nat)
    (hnd : m.keysOf.Nodup) (hb : ∀ j ∈ m.keysOf, a ≤ j ∧ j ≤ b) :
    m.length ≤ b + 1 - a := by
  have hlen : m.keysOf.length = m.length := by simp [VMap.keysOf]
  rw [← hlen, ← List.toFinset_card_of_nodup hnd]
  have hsub : m.keysOf.toFinset ⊆ Finset.Icc a b := by
    intro j hj
    rw [List.mem_toFinset] at hj
    exact Finset.mem_Icc.2 (hb j hj)
  calc m.keysOf.toFinset.card ≤ (Finset.Icc a b).card := Finset.card_le_card hsub
    _ = b + 1 - a := Nat.card_Icc a b

theorem effectiveMaxVersions_pos (a b : Nat) : 1 ≤ effectiveMaxVersions a b := by
  unfold effectiveMaxVersions defaultMaxVersions
  split_ifs <;> omega

theorem effectiveMaxVersions_lt_U32 (a b : Nat) (ha : a < U32) (hb : b < U32) :
    effectiveMaxVersions a b < U32 := by
  unfold effectiveMaxVersions defaultMaxVersions U32 at *
  split_ifs <;> omega

theorem mod_wrap_sub (x y : Nat) (hy : y ≤ x) (hx : x < U64) :
    (x + U64 - y) % U64 = x - y := by
  have h1 : x + U64 - y = (x - y) + U64 := by omega
  rw [h1, Nat.add_mod_right]
  exact Nat.mod_eq_of_lt (by omega)

/-- **C1.** `AddVersion(createdTime, archiveTime, configMaxVersions)` on a
well-formed record: `CurrentVersion` is incremented by one and the new
`VersionMetadata` is inserted at the new `CurrentVersion`; with effective
`maxVersions` = `meta.MaxVersions` if non-zero, else `configMaxVersions`
if positive, else 10, if `CurrentVersion - OldestVersion ≥ maxVersions`
then every entry of `Versions` in `[OldestVersion, CurrentVersion -
maxVersions]` is removed, `OldestVersion` becomes `CurrentVersion -
maxVersions + 1`, and `CurrentVersion - maxVersions` is returned;
otherwise 0 is returned.  At most `maxVersions` entries remain in
`Versions` after the call. -/
theorem addVersion_retention
    (meta : KeyMetadata) (ct dt : Option Int) (cfgMax : Nat)
    (hnodup : meta.versions.keysOf.Nodup)
    (hkeys : ∀ kv ∈ meta.versions, meta.oldestVersion ≤ kv.1 ∧ kv.1 ≤ meta.currentVersion)
    (hole : meta.oldestVersion ≤ meta.currentVersion)
    (hcur : meta.currentVersion + 1 < U64)
    (hdiff : meta.currentVersion + 1 - meta.oldestVersion < U32)
    (hmax32 : meta.maxVersions < U32) (hcfg32 : cfgMax < U32) :
    (meta.addVersion ct dt cfgMax).1.currentVersion = meta.currentVersion + 1 ∧
    (meta.addVersion ct dt cfgMax).1.versions.lookupV (meta.currentVersion + 1) =
      some ⟨ct, dt, false⟩ ∧
    (effectiveMaxVersions meta.maxVersions cfgMax ≤
        meta.currentVersion + 1 - meta.oldestVersion →
      (meta.addVersion ct dt cfgMax).2 =
        meta.currentVersion + 1 - effectiveMaxVersions meta.maxVersions cfgMax ∧
      (meta.addVersion ct dt cfgMax).1.oldestVersion =
        meta.currentVersion + 1 - effectiveMaxVersions meta.maxVersions cfgMax + 1 ∧
      ∀ j, meta.oldestVersion ≤ j →
        j ≤ meta.currentVersion + 1 - effectiveMaxVersions meta.maxVersions cfgMax →
        (meta.addVersion ct dt cfgMax).1.versions.lookupV j = none) ∧
    (meta.currentVersion + 1 - meta.oldestVersion <
        effectiveMaxVersions meta.maxVersions cfgMax →
      (meta.addVersion ct dt cfgMax).2 = 0 ∧
      (meta.addVersion ct dt cfgMax).1.oldestVersion = meta.oldestVersion) ∧
    (meta.addVersion ct dt cfgMax).1.versions.length ≤
      effectiveMaxVersions meta.maxVersions cfgMax := by
  have hmv1 : 1 ≤ effectiveMaxVersions meta.maxVersions cfgMax :=
    effectiveMaxVersions_pos _ _
  have hmvU : effectiveMaxVersions meta.maxVersions cfgMax < U32 :=
    effectiveMaxVersions_lt_U32 _ _ hmax32 hcfg32
  set o := meta.oldestVersion with ho
  set c := meta.currentVersion with hc
  set mv := effectiveMaxVersions meta.maxVersions cfgMax with hmv
  have hc1 : (c + 1) % U64 = c + 1 := Nat.mod_eq_of_lt hcur
  have hA : (c + 1 + U64 - o) % U64 % U32 = c + 1 - o := by
    rw [mod_wrap_sub (c + 1) o (by omega) hcur]
    exact Nat.mod_eq_of_lt hdiff
  by_cases htrim : mv ≤ c + 1 - o
  · have hB : (c + 1 + U64 - mv) % U64 = c + 1 - mv :=
      mod_wrap_sub _ _ (by omega) hcur
    have hC : (c + 1 - mv + 1) % U64 = c + 1 - mv + 1 :=
      Nat.mod_eq_of_lt (by omega)
    have heq : meta.addVersion ct dt cfgMax =
        ({ meta with
            currentVersion := c + 1
            versions := (List.range' o (c + 1 - mv + 1 - o)).foldl VMap.eraseV
              (meta.versions.insertV (c + 1) ⟨ct, dt, false⟩)
            oldestVersion := c + 1 - mv + 1
            updatedTime := ct
            createdTime := if meta.createdTime = none then ct else meta.createdTime },
          c + 1 - mv) := by
      rw [KeyMetadata.addVersion]
      simp only [← hmv, ← ho, ← hc, hc1, hA, hB, hC]
      rw [if_pos (by omega : c + 1 - o ≥ mv)]
    have hnewNotIn : (c + 1) ∉ List.range' o (c + 1 - mv + 1 - o) := by
      rw [List.mem_range'_1]
      omega
    refine ⟨?_, ?_, ?_, ?_, ?_⟩
    · rw [heq]
    · rw [heq]
      simp only [VMap.lookupV_foldl_eraseV, VMap.lookupV_insertV]
      simp [hnewNotIn]
    · intro _
      refine ⟨by rw [heq], by rw [heq], ?_⟩
      intro j hj1 hj2
      rw [heq]
      simp only [VMap.lookupV_foldl_eraseV]
      have hjin : j ∈ List.range' o (c + 1 - mv + 1 - o) := by
        rw [List.mem_range'_1]
        omega
      simp [hjin]
    · intro hlt
      omega
    · rw [heq]
      have hnd2 : ((List.range' o (c + 1 - mv + 1 - o)).foldl VMap.eraseV
          (meta.versions.insertV (c + 1) ⟨ct, dt, false⟩)).keysOf.Nodup :=
        VMap.nodup_keysOf_foldl_eraseV _ _
          (VMap.nodup_keysOf_insertV _ _ _ hnodup)
      have hb := VMap.length_le_of_bounded
        ((List.range' o (c + 1 - mv + 1 - o)).foldl VMap.eraseV
          (meta.versions.insertV (c + 1) ⟨ct, dt, false⟩))
        (c + 1 - mv + 1) (c + 1) hnd2 ?_
      · calc _ ≤ c + 1 + 1 - (c + 1 - mv + 1) := hb
          _ = mv := by omega
      · intro j hj
        rw [VMap.mem_keysOf] at hj
        obtain ⟨v, hv⟩ := hj
        rw [VMap.mem_foldl_eraseV] at hv
        obtain ⟨hv1, hv2⟩ := hv
        rw [VMap.mem_insertV] at hv1
        rw [List.mem_range'_1] at hv2
        rcases hv1 with heq1 | ⟨hmem, hne⟩
        · have : j = c + 1 := congrArg Prod.fst heq1
          omega
        · have hk := hkeys _ hmem
          simp only at hk
          omega
  · have heq : meta.addVersion ct dt cfgMax =
        ({ meta with
            currentVersion := c + 1
            versions := meta.versions.insertV (c + 1) ⟨ct, dt, false⟩
            updatedTime := ct
            createdTime := if meta.createdTime = none then ct else meta.createdTime },
          0) := by
      rw [KeyMetadata.addVersion]
      simp only [← hmv, ← ho, ← hc, hc1, hA]
      rw [if_neg (by omega : ¬ c + 1 - o ≥ mv)]
    refine ⟨?_, ?_, ?_, ?_, ?_⟩
    · rw [heq]
    · rw [heq]
      simp [VMap.lookupV_insertV]
    · intro hge
      omega
    · intro _
      exact ⟨by rw [heq], by rw [heq]⟩
    · rw [heq]
      have hnd2 : (meta.versions.insertV (c + 1) ⟨ct, dt, false⟩).keysOf.Nodup :=
        VMap.nodup_keysOf_insertV _ _ _ hnodup
      have hb := VMap.length_le_of_bounded
        (meta.versions.insertV (c + 1) ⟨ct, dt, false⟩) o (c + 1) hnd2 ?_
      · calc _ ≤ c + 1 + 1 - o := hb
          _ ≤ mv := by omega
      · intro j hj
        rw [VMap.mem_keysOf] at hj
        obtain ⟨v, hv⟩ := hj
        rw [VMap.mem_insertV] at hv
        rcases hv with heq1 | ⟨hmem, hne⟩
        · have : j = c + 1 := congrArg Prod.fst heq1
          omega
        · have hk := hkeys _ hmem
          simp only at hk
          omega

/-- Witness for C1: a key with versions {1, 2}, `CurrentVersion = 2`,
`OldestVersion = 1`, per-key `MaxVersions = 2`: the third write trims
version 1, returns 1, and leaves two versions. -/
theorem addVersion_retention_witness :
    ((⟨"foo", [(1, ⟨some 0, none, false⟩), (2, ⟨some 1, none, false⟩)], 2, 1,
        some 0, some 1, 2, false, []⟩ : KeyMetadata).addVersion
      (some 5) none 0).1.currentVersion = 3 ∧
    ((⟨"foo", [(1, ⟨some 0, none, false⟩), (2, ⟨some 1, none, false⟩)], 2, 1,
        some 0, some 1, 2, false, []⟩ : KeyMetadata).addVersion (some 5) none 0).2 = 1 ∧
    ((⟨"foo", [(1, ⟨some 0, none, false⟩), (2, ⟨some 1, none, false⟩)], 2, 1,
        some 0, some 1, 2, false, []⟩ : KeyMetadata).addVersion
      (some 5) none 0).1.oldestVersion = 2 ∧
    ((⟨"foo", [(1, ⟨some 0, none, false⟩), (2, ⟨some 1, none, false⟩)], 2, 1,
        some 0, some 1, 2, false, []⟩ : KeyMetadata).addVersion
      (some 5) none 0).1.versions.lookupV 1 = none ∧
    ((⟨"foo", [(1, ⟨some 0, none, false⟩), (2, ⟨some 1, none, false⟩)], 2, 1,
        some 0, some 1, 2, false, []⟩ : KeyMetadata).addVersion
      (some 5) none 0).1.versions.length ≤ 2 := by
  have h := addVersion_retention
    ⟨"foo", [(1, ⟨some 0, none, false⟩), (2, ⟨some 1, none, false⟩)], 2, 1,
      some 0, some 1, 2, false, []⟩ (some 5) none 0
    (by decide) (by decide) (by decide) (by decide) (by decide) (by decide) (by decide)
  obtain ⟨h1, _h2, h3, _h4, h5⟩ := h
  have ht := h3 (by decide)
  refine ⟨by simpa using h1, by simpa using ht.1, by simpa using ht.2.1,
    ht.2.2 1 (by decide) (by decide), by simpa [effectiveMaxVersions] using h5⟩

/-- **C2.** The CAS gate of `pathDataWrite`: when `Config.CasRequired` or
`meta.CasRequired` holds and no `options.cas` is supplied the write fails
with the invalid-request error `"check-and-set parameter required for
this call"` (`errCasRequired`) and performs no storage write; a supplied
`cas` different from `meta.CurrentVersion` (in particular `cas = 0` when
`CurrentVersion > 0`) fails with the user error `"check-and-set parameter
did not match the current version"` (`errCasMismatch`) and performs no
storage write; a supplied `cas` equal to `meta.CurrentVersion` lets the
write proceed. -/
theorem pathDataWrite_cas_check (config : Configuration) (key : String)
    (meta0 : Option KeyMetadata) (d : JObj) (now : Int) :
    ((config.casRequired ∨ (meta0.getD (emptyMeta key)).casRequired) →
      pathDataWrite config key meta0 (some d) none now = (.errCasRequired, [])) ∧
    (∀ cas, cas ≠ (meta0.getD (emptyMeta key)).currentVersion →
      pathDataWrite config key meta0 (some d) (some cas) now = (.errCasMismatch, [])) ∧
    (∀ cas, cas = (meta0.getD (emptyMeta key)).currentVersion →
      ∃ meta' v tr,
        pathDataWrite config key meta0 (some d) (some cas) now = (.ok meta' v, tr)) := by
  refine ⟨?_, ?_, ?_⟩
  · intro h
    simp [pathDataWrite, h]
  · intro cas hne
    simp [pathDataWrite, hne]
  · intro cas heq
    simp only [pathDataWrite, heq, ne_eq, not_true_eq_false, if_neg, ite_false]
    exact ⟨_, _, _, rfl⟩

/-- Witness for C2: with `cas_required = true` in the config and no prior
metadata, a cas-less write errors, `cas=5` mismatches `CurrentVersion=0`,
and `cas=0` is accepted. -/
theorem pathDataWrite_cas_check_witness :
    pathDataWrite ⟨0, true, 0⟩ "foo" none (some []) none 0 = (.errCasRequired, []) ∧
    pathDataWrite ⟨0, true, 0⟩ "foo" none (some []) (some 5) 0 = (.errCasMismatch, []) ∧
    ∃ meta' v tr,
      pathDataWrite ⟨0, true, 0⟩ "foo" none (some []) (some 0) 0 = (.ok meta' v, tr) := by
  have h := pathDataWrite_cas_check ⟨0, true, 0⟩ "foo" none [] 0
  exact ⟨h.1 (Or.inl rfl), h.2.1 5 (by decide), h.2.2 0 (by decide)⟩

/-- **C5.** (code bug) While the atomic `upgrading` flag is 1,
`upgradeCheck` rejects every request before it reaches the wrapped
handler, and with the flag 0 it runs the handler unchanged — but the
rejection carries `"Can not handle request while upgrade is in process"`,
not the transient string `"Upgrading from non-versioned to versioned
data. ..."` that the claim and the repository's upgrade tests
(upgrade_test.go) require. -/
theorem upgradeCheck_gate_and_message :
    (∀ (α β : Type) (next : α → β) (req : α),
      upgradeCheck 1 next req = .rejected upgradeInProcessMsg ∧
      upgradeCheck 0 next req = .passed (next req)) ∧
    (upgradeInProcessMsg == upgradeTransientMsg) = false := by
  exact ⟨fun α β next req => ⟨rfl, rfl⟩, by decide⟩

/-- Counterexample to C8 as stated: with a non-zero config (mount)
duration 3600 and a non-zero per-key (meta) duration 7200,
`deletionTime` yields `creation + 3600` — the minimum — not
`creation + 7200`, so the per-key value does not take precedence. -/
theorem deletionTime_not_meta_precedence :
    deletionTime 0 3600 7200 0 = some 3600 ∧
    ((deletionTime 0 3600 7200 0 == some 7200) = false) := by
  exact ⟨by decide, by decide⟩

/-- **C8** (amended): `deletionTime` returns the creation time plus the
minimum non-zero value among the mount-config, per-key, and per-version
durations (`none` when all three are zero); a zero duration means
not-set, and `deletionTime` itself applies no negative sentinel — a
negative duration simply participates in the minimum, disabling being
checked separately against the config at the call site. -/
theorem deletionTime_min_nonzero (creation mount meta data : Int) :
    deletionTime creation mount meta data =
      (minNonZeroDur [mount, meta, data]).map (fun d => creation + d) := by
  simp only [deletionTime, minNonZeroDur]
  by_cases hm : mount = 0 <;> by_cases hme : meta = 0 <;> by_cases hd : data = 0 <;>
    simp only [hm, hme, hd, and_self, and_true, true_and, and_false, false_and,
      not_true_eq_false, not_false_eq_true, ite_true, ite_false, if_pos, if_neg,
      ne_eq, or_false, or_true, false_or, true_or] <;>
    first
      | (simp; done)
      | (simp only [inf_eq_min, min_def] <;> split_ifs <;> simp <;> omega)

/-- **C4.** (code bug, subkeys handler) Reading a destroyed version:
`pathDataRead` responds 404 carrying the version's metadata block, but
`pathSubkeysRead` passes a nil response to `RespondWithStatusCode` in its
`Destroyed` branch, so its 404 carries no metadata — contrary to the
claim and to `TestVersionedKV_Subkeys_VersionDestroyed`, which reads the
`metadata` field out of the 404 body.  The past-deletion-time branch of
`pathSubkeysRead` does carry the metadata, as the claim says. -/
theorem subkeys_destroyed_404_body :
    pathSubkeysRead
      (some ⟨"foo", [(1, ⟨some 0, none, true⟩)], 1, 1, some 0, some 0, 0, false, []⟩)
      0 10 (fun _ => none) = .notFound none ∧
    pathDataRead
      (some ⟨"foo", [(1, ⟨some 0, none, true⟩)], 1, 1, some 0, some 0, 0, false, []⟩)
      none 10 (fun _ => none) = .notFound ⟨1, some 0, none, true⟩ ∧
    pathSubkeysRead
      (some ⟨"foo", [(1, ⟨some 0, some 3, false⟩)], 1, 1, some 0, some 0, 0, false, []⟩)
      0 10 (fun _ => none) = .notFound (some ⟨1, some 0, some 3, false, []⟩) := by
  exact ⟨rfl, rfl, rfl⟩

/-- What one loop iteration of `pathArchiveWrite` does to the looked-up
version: skip destroyed or already-past-deletion versions, otherwise
stamp the deletion/archive time. -/
def archivePerKey (now : Int) (vm : VersionMetadata) : VersionMetadata :=
  if vm.destroyed then vm
  else if deletedAt vm.deletionTime now then vm
  else { vm with deletionTime := some now }

/-- What one loop iteration of `pathUnarchiveWrite` does to the looked-up
version: skip destroyed versions, otherwise clear the deletion/archive
time. -/
def unarchivePerKey (vm : VersionMetadata) : VersionMetadata :=
  if vm.destroyed then vm else { vm with deletionTime := none }

theorem archiveStep_lookupV (now : Int) (m : VMap) (w j : Nat) :
    (archiveStep now m w).lookupV j =
      if j = w then (m.lookupV w).map (archivePerKey now) else m.lookupV j := by
  unfold archiveStep
  cases hw : m.lookupV w with
  | none =>
    by_cases hjw : j = w
    · subst hjw; simp [hw]
    · simp [hjw]
  | some lv =>
    by_cases hdes : lv.destroyed = true
    · simp only [hdes, ite_true]
      by_cases hjw : j = w
      · subst hjw; simp [hw, archivePerKey, hdes]
      · simp [hjw]
    · rw [Bool.not_eq_true] at hdes
      by_cases hdel : deletedAt lv.deletionTime now = true
      · simp only [hdes, hdel, Bool.false_eq_true, ite_false, ite_true]
        by_cases hjw : j = w
        · subst hjw; simp [hw, archivePerKey, hdes, hdel]
        · simp [hjw]
      · rw [Bool.not_eq_true] at hdel
        simp only [hdes, hdel, Bool.false_eq_true, ite_false]
        rw [VMap.lookupV_updateV]
        by_cases hjw : j = w
        · subst hjw; simp [hw, archivePerKey, hdes, hdel]
        · simp [hjw]

theorem unarchiveStep_lookupV (m : VMap) (w j : Nat) :
    (unarchiveStep m w).lookupV j =
      if j = w then (m.lookupV w).map unarchivePerKey else m.lookupV j := by
  unfold unarchiveStep
  cases hw : m.lookupV w with
  | none =>
    by_cases hjw : j = w
    · subst hjw; simp [hw]
    · simp [hjw]
  | some lv =>
    by_cases hdes : lv.destroyed = true
    · simp only [hdes, ite_true]
      by_cases hjw : j = w
      · subst hjw; simp [hw, unarchivePerKey, hdes]
      · simp [hjw]
    · rw [Bool.not_eq_true] at hdes
      simp only [hdes, Bool.false_eq_true, ite_false]
      rw [VMap.lookupV_updateV]
      by_cases hjw : j = w
      · subst hjw; simp [hw, unarchivePerKey, hdes]
      · simp [hjw]

theorem archivePerKey_idem (now : Int) (vm : VersionMetadata) :
    archivePerKey now (archivePerKey now vm) = archivePerKey now vm := by
  by_cases hdes : vm.destroyed = true
  · simp [archivePerKey, hdes]
  · rw [Bool.not_eq_true] at hdes
    by_cases hdel : deletedAt vm.deletionTime now = true
    · simp [archivePerKey, hdes, hdel]
    · rw [Bool.not_eq_true] at hdel
      have h1 : archivePerKey now vm = { vm with deletionTime := some now } := by
        simp [archivePerKey, hdes, hdel]
      rw [h1]
      have h2 : deletedAt (some now) now = false := by simp [deletedAt]
      simp [archivePerKey, hdes, h2]

theorem unarchivePerKey_idem (vm : VersionMetadata) :
    unarchivePerKey (unarchivePerKey vm) = unarchivePerKey vm := by
  by_cases hdes : vm.destroyed = true
  · simp [unarchivePerKey, hdes]
  · rw [Bool.not_eq_true] at hdes
    simp [unarchivePerKey, hdes]

theorem foldl_archiveStep_lookupV (now : Int) (l : List Nat) (m : VMap) (j : Nat) :
    (l.foldl (archiveStep now) m).lookupV j =
      if j ∈ l then (m.lookupV j).map (archivePerKey now) else m.lookupV j := by
  induction l generalizing m with
  | nil => simp
  | cons x rest ih =>
    rw [List.foldl_cons, ih, archiveStep_lookupV]
    by_cases hjx : j = x
    · subst hjx
      by_cases hjr : j ∈ rest
      · simp only [hjr, ite_true, List.mem_cons, true_or]
        cases m.lookupV j <;> simp [archivePerKey_idem]
      · simp [hjr, List.mem_cons]
    · by_cases hjr : j ∈ rest
      · simp [hjx, hjr, List.mem_cons]
      · simp [hjx, hjr, List.mem_cons]

theorem foldl_unarchiveStep_lookupV (l : List Nat) (m : VMap) (j : Nat) :
    (l.foldl unarchiveStep m).lookupV j =
      if j ∈ l then (m.lookupV j).map unarchivePerKey else m.lookupV j := by
  induction l generalizing m with
  | nil => simp
  | cons x rest ih =>
    rw [List.foldl_cons, ih, unarchiveStep_lookupV]
    by_cases hjx : j = x
    · subst hjx
      by_cases hjr : j ∈ rest
      · simp only [hjr, ite_true, List.mem_cons, true_or]
        cases m.lookupV j <;> simp [unarchivePerKey_idem]
      · simp [hjr, List.mem_cons]
    · by_cases hjr : j ∈ rest
      · simp [hjx, hjr, List.mem_cons]
      · simp [hjx, hjr, List.mem_cons]

/-- Counterexample to C6 as stated: version 1 is present and not
destroyed, but its deletion time (0) already lies in the past of `now = 5`,
so `pathArchiveWrite` skips it — the record is returned unchanged and the
version's deletion time is not set to `now`. -/
theorem archive_skips_already_deleted :
    pathArchiveWrite 5 [1]
      (some ⟨"k", [(1, ⟨some 0, some 0, false⟩)], 1, 1, some 0, some 0, 0, false, []⟩) =
      .ok (some ⟨"k", [(1, ⟨some 0, some 0, false⟩)], 1, 1, some 0, some 0, 0, false, []⟩)
        [.putMetadata] ∧
    ((⟨some 0, some 0, false⟩ : VersionMetadata).deletionTime == some 5) = false := by
  exact ⟨rfl, by decide⟩

/-- **C6** (amended): for each listed version that is present, not
destroyed, and not already past its deletion time, the delete (archive)
handler sets its deletion/archive timestamp to `now`; versions that are
destroyed, missing, or already deleted (past timestamp) are skipped
unchanged.  The undelete (unarchive) handler clears the timestamp of each
present non-destroyed listed version and skips destroyed or missing ones.
Hence for a live version `v`, `delete(v)` then `undelete(v)` restores the
version metadata exactly, with `DeletionTime = nil`. -/
theorem archive_unarchive_toggle (now : Int) (versions : List Nat)
    (meta : KeyMetadata) (hne : versions ≠ []) :
    (∃ metaA, pathArchiveWrite now versions (some meta) = .ok (some metaA) [.putMetadata] ∧
      (∀ v lv, v ∈ versions → meta.versions.lookupV v = some lv →
        lv.destroyed = false → deletedAt lv.deletionTime now = false →
        metaA.versions.lookupV v = some { lv with deletionTime := some now }) ∧
      (∀ v lv, v ∈ versions → meta.versions.lookupV v = some lv →
        (lv.destroyed = true ∨ deletedAt lv.deletionTime now = true) →
        metaA.versions.lookupV v = some lv) ∧
      (∀ v, meta.versions.lookupV v = none → metaA.versions.lookupV v = none) ∧
      (∀ v, v ∉ versions → metaA.versions.lookupV v = meta.versions.lookupV v)) ∧
    (∃ metaB, pathUnarchiveWrite versions (some meta) = .ok (some metaB) [.putMetadata] ∧
      (∀ v lv, v ∈ versions → meta.versions.lookupV v = some lv →
        lv.destroyed = false →
        metaB.versions.lookupV v = some { lv with deletionTime := none }) ∧
      (∀ v lv, v ∈ versions → meta.versions.lookupV v = some lv →
        lv.destroyed = true → metaB.versions.lookupV v = some lv) ∧
      (∀ v, meta.versions.lookupV v = none → metaB.versions.lookupV v = none) ∧
      (∀ v, v ∉ versions → metaB.versions.lookupV v = meta.versions.lookupV v)) ∧
    (∀ v lv, v ∈ versions → meta.versions.lookupV v = some lv →
      lv.destroyed = false → lv.deletionTime = none →
      ∀ metaA, pathArchiveWrite now versions (some meta) = .ok (some metaA) [.putMetadata] →
      ∀ metaB, pathUnarchiveWrite versions (some metaA) = .ok (some metaB) [.putMetadata] →
      metaB.versions.lookupV v = some lv) := by
  have hlen : ¬ versions.length = 0 := by
    simpa [List.length_eq_zero] using hne
  have hAeq : pathArchiveWrite now versions (some meta) =
      .ok (some { meta with versions := versions.foldl (archiveStep now) meta.versions })
        [.putMetadata] := by
    unfold pathArchiveWrite
    rw [if_neg hlen]
  have hBeq : ∀ m : KeyMetadata, pathUnarchiveWrite versions (some m) =
      .ok (some { m with versions := versions.foldl unarchiveStep m.versions })
        [.putMetadata] := by
    intro m
    unfold pathUnarchiveWrite
    rw [if_neg hlen]
  refine ⟨⟨_, hAeq, ?_, ?_, ?_, ?_⟩, ⟨_, hBeq meta, ?_, ?_, ?_, ?_⟩, ?_⟩
  · intro v lv hv hlv hdes hdel
    simp [foldl_archiveStep_lookupV, hv, hlv, archivePerKey, hdes, hdel]
  · intro v lv hv hlv hskip
    rcases hskip with hdes | hdel
    · simp [foldl_archiveStep_lookupV, hv, hlv, archivePerKey, hdes]
    · by_cases hdes : lv.destroyed = true
      · simp [foldl_archiveStep_lookupV, hv, hlv, archivePerKey, hdes]
      · rw [Bool.not_eq_true] at hdes
        simp [foldl_archiveStep_lookupV, hv, hlv, archivePerKey, hdes, hdel]
  · intro v hv
    by_cases hmem : v ∈ versions
    · simp [foldl_archiveStep_lookupV, hmem, hv]
    · simp [foldl_archiveStep_lookupV, hmem, hv]
  · intro v hv
    simp [foldl_archiveStep_lookupV, hv]
  · intro v lv hv hlv hdes
    simp [foldl_unarchiveStep_lookupV, hv, hlv, unarchivePerKey, hdes]
  · intro v lv hv hlv hdes
    simp [foldl_unarchiveStep_lookupV, hv, hlv, unarchivePerKey, hdes]
  · intro v hv
    by_cases hmem : v ∈ versions
    · simp [foldl_unarchiveStep_lookupV, hmem, hv]
    · simp [foldl_unarchiveStep_lookupV, hmem, hv]
  · intro v hv
    simp [foldl_unarchiveStep_lookupV, hv]
  · intro v lv hv hlv hdes hdel metaA hA metaB hB
    rw [hAeq] at hA
    have hAinj : metaA =
        { meta with versions := versions.foldl (archiveStep now) meta.versions } := by
      cases hA
      rfl
    subst hAinj
    rw [hBeq] at hB
    have hBinj : metaB =
        { { meta with versions := versions.foldl (archiveStep now) meta.versions } with
            versions := versions.foldl unarchiveStep
              (versions.foldl (archiveStep now) meta.versions) } := by
      cases hB
      rfl
    subst hBinj
    have h1 : (versions.foldl (archiveStep now) meta.versions).lookupV v =
        some { lv with deletionTime := some now } := by
      have hdelA : deletedAt lv.deletionTime now = false := by
        rw [hdel]; rfl
      simp [foldl_archiveStep_lookupV, hv, hlv, archivePerKey, hdes, hdelA]
    have h3 : (versions.foldl unarchiveStep
        (versions.foldl (archiveStep now) meta.versions)).lookupV v =
        some (unarchivePerKey { lv with deletionTime := some now }) := by
      rw [foldl_unarchiveStep_lookupV]
      simp [hv, h1]
    have h4 : unarchivePerKey { lv with deletionTime := some now } = lv := by
      cases lv
      simp_all [unarchivePerKey]
    simpa [h4] using h3

/-- Witness for C6: deleting then undeleting the live version 1 restores
its metadata with a nil deletion time. -/
theorem archive_unarchive_toggle_witness :
    pathArchiveWrite 5 [1]
      (some ⟨"k", [(1, ⟨some 0, none, false⟩)], 1, 1, some 0, some 0, 0, false, []⟩) =
      .ok (some ⟨"k", [(1, ⟨some 0, some 5, false⟩)], 1, 1, some 0, some 0, 0, false, []⟩)
        [.putMetadata] ∧
    pathUnarchiveWrite [1]
      (some ⟨"k", [(1, ⟨some 0, some 5, false⟩)], 1, 1, some 0, some 0, 0, false, []⟩) =
      .ok (some ⟨"k", [(1, ⟨some 0, none, false⟩)], 1, 1, some 0, some 0, 0, false, []⟩)
        [.putMetadata] ∧
    (⟨"k", [(1, ⟨some 0, none, false⟩)], 1, 1, some 0, some 0, 0, false, []⟩
      : KeyMetadata).versions.lookupV 1 = some ⟨some 0, none, false⟩ := by
  have h := archive_unarchive_toggle 5 [1]
    ⟨"k", [(1, ⟨some 0, none, false⟩)], 1, 1, some 0, some 0, 0, false, []⟩ (by decide)
  refine ⟨rfl, rfl, ?_⟩
  exact h.2.2 1 ⟨some 0, none, false⟩ (by decide) (by decide) rfl rfl
    ⟨"k", [(1, ⟨some 0, some 5, false⟩)], 1, 1, some 0, some 0, 0, false, []⟩ rfl
    ⟨"k", [(1, ⟨some 0, none, false⟩)], 1, 1, some 0, some 0, 0, false, []⟩ rfl

theorem destroyStep_lookupV (m : VMap) (w j : Nat) :
    (destroyStep m w).lookupV j =
      if j = w then (m.lookupV w).map (fun lv => { lv with destroyed := true })
      else m.lookupV j := by
  unfold destroyStep
  cases hw : m.lookupV w with
  | none =>
    by_cases hjw : j = w
    · subst hjw; simp [hw]
    · simp [hjw]
  | some lv =>
    by_cases hdes : lv.destroyed = true
    · simp only [hdes, ite_true]
      by_cases hjw : j = w
      · subst hjw
        rw [if_pos rfl, hw]
        cases lv
        simp_all
      · simp [hjw]
    · rw [Bool.not_eq_true] at hdes
      simp only [hdes, Bool.false_eq_true, ite_false]
      rw [VMap.lookupV_updateV]
      by_cases hjw : j = w
      · subst hjw; simp [hw]
      · simp [hjw]

theorem foldl_destroyStep_lookupV (l : List Nat) (m : VMap) (j : Nat) :
    (l.foldl destroyStep m).lookupV j =
      if j ∈ l then (m.lookupV j).map (fun lv => { lv with destroyed := true })
      else m.lookupV j := by
  induction l generalizing m with
  | nil => simp
  | cons x rest ih =>
    rw [List.foldl_cons, ih, destroyStep_lookupV]
    by_cases hjx : j = x
    · subst hjx
      by_cases hjr : j ∈ rest
      · simp only [hjr, ite_true, List.mem_cons, true_or]
        cases m.lookupV j <;> simp
      · simp [hjr, List.mem_cons]
    · by_cases hjr : j ∈ rest
      · simp [hjx, hjr, List.mem_cons]
      · simp [hjx, hjr, List.mem_cons]

theorem foldl_destroyStep_eq_self (l : List Nat) (m : VMap)
    (h : ∀ v ∈ l, ∀ lv, m.lookupV v = some lv → lv.destroyed = true) :
    l.foldl destroyStep m = m := by
  induction l generalizing m with
  | nil => rfl
  | cons x rest ih =>
    have hx : destroyStep m x = m := by
      unfold destroyStep
      cases hw : m.lookupV x with
      | none => rfl
      | some lv =>
        have hd := h x (List.mem_cons_self _ _) lv hw
        simp [hd]
    rw [List.foldl_cons, hx]
    exact ih m (fun v hv lv hl => h v (List.mem_cons_of_mem _ hv) lv hl)

theorem mem_foldl_finsetErase (l : List Nat) (bs : Finset Nat) (j : Nat) :
    j ∈ l.foldl (fun bs v => bs.erase v) bs ↔ j ∈ bs ∧ j ∉ l := by
  induction l generalizing bs with
  | nil => simp
  | cons x rest ih =>
    rw [List.foldl_cons, ih]
    simp only [Finset.mem_erase, List.mem_cons]
    tauto

/-- **C7.** `pathDestroyWrite`: each listed version that is present has
its `Destroyed` flag set (a no-op for versions already destroyed), the
metadata record is persisted before any version blob is deleted, each
listed version's blob is removed from storage, destroying only
absent-or-already-destroyed versions leaves the metadata record
unchanged, and destroy applied twice with the same argument equals
destroy applied once on the key's state. -/
theorem destroy_idempotent (versions : List Nat) (s : KeyState) :
    (versions ≠ [] → ∀ meta, s.meta = some meta →
      ∃ meta', (pathDestroyWrite versions s).state.meta = some meta' ∧
        (∀ v lv, v ∈ versions → meta.versions.lookupV v = some lv →
          meta'.versions.lookupV v = some { lv with destroyed := true }) ∧
        (∀ v, v ∉ versions → meta'.versions.lookupV v = meta.versions.lookupV v) ∧
        (∀ v, v ∈ (pathDestroyWrite versions s).state.blobs ↔
          v ∈ s.blobs ∧ v ∉ versions)) ∧
    (∀ (j v : Nat), (pathDestroyWrite versions s).events[j]? =
        some (StorageEvent.deleteVersion v) →
      ∃ i : Nat, i < j ∧ (pathDestroyWrite versions s).events[i]? =
        some StorageEvent.putMetadata) ∧
    (∀ meta, s.meta = some meta →
      (∀ v ∈ versions, ∀ lv, meta.versions.lookupV v = some lv → lv.destroyed = true) →
      (pathDestroyWrite versions s).state.meta = some meta) ∧
    (pathDestroyWrite versions (pathDestroyWrite versions s).state).state =
      (pathDestroyWrite versions s).state := by
  by_cases hlen : versions.length = 0
  · have hnil : versions = [] := List.length_eq_zero.1 hlen
    subst hnil
    refine ⟨fun h => absurd rfl h, ?_, ?_, ?_⟩
    · intro j v hj
      simp [pathDestroyWrite] at hj
    · intro meta hm _
      simpa [pathDestroyWrite]
    · simp [pathDestroyWrite]
  · cases hsm : s.meta with
    | none =>
      have heq : pathDestroyWrite versions s = ⟨s, [], false⟩ := by
        unfold pathDestroyWrite
        rw [if_neg hlen, hsm]
      refine ⟨?_, ?_, ?_, ?_⟩
      · intro _ meta hmeta
        exact absurd hmeta (by simp)
      · intro j v hj
        rw [heq] at hj
        simp at hj
      · intro meta hmeta
        exact absurd hmeta (by simp)
      · rw [heq]
        simp [heq]
    | some meta =>
      have heq : pathDestroyWrite versions s =
          ⟨⟨some { meta with versions := versions.foldl destroyStep meta.versions },
            versions.foldl (fun bs v => bs.erase v) s.blobs⟩,
           .putMetadata :: versions.map (fun v => .deleteVersion v), false⟩ := by
        unfold pathDestroyWrite
        rw [if_neg hlen, hsm]
      refine ⟨?_, ?_, ?_, ?_⟩
      · intro _ meta0 hmeta0
        have hm0 : meta0 = meta := by
          cases hmeta0
          rfl
        subst hm0
        refine ⟨_, by rw [heq], ?_, ?_, ?_⟩
        · intro v lv hv hlv
          simp [foldl_destroyStep_lookupV, hv, hlv]
        · intro v hv
          simp [foldl_destroyStep_lookupV, hv]
        · intro v
          rw [heq]
          exact mem_foldl_finsetErase versions s.blobs v
      · intro j v hj
        rw [heq] at hj
        refine ⟨0, ?_, ?_⟩
        · cases j with
          | zero => simp at hj
          | succ n => exact Nat.succ_pos n
        · rw [heq]
          simp
      · intro meta0 hmeta0 hall
        have hm0 : meta0 = meta := by
          cases hmeta0
          rfl
        subst hm0
        rw [heq]
        show some { meta0 with versions := versions.foldl destroyStep meta0.versions } =
          some meta0
        rw [foldl_destroyStep_eq_self _ _ hall]
      · have hall2 : ∀ v ∈ versions, ∀ lv,
            (versions.foldl destroyStep meta.versions).lookupV v = some lv →
            lv.destroyed = true := by
          intro v hv lv hlv
          rw [foldl_destroyStep_lookupV, if_pos hv] at hlv
          cases hml : meta.versions.lookupV v with
          | none => rw [hml] at hlv; simp at hlv
          | some lv0 =>
            rw [hml] at hlv
            have h5 : { lv0 with destroyed := true } = lv := by
              injection hlv
            rw [← h5]
        have hbs : versions.foldl (fun bs v => bs.erase v)
            (versions.foldl (fun bs v => bs.erase v) s.blobs) =
            versions.foldl (fun bs v => bs.erase v) s.blobs := by
          apply Finset.ext
          intro j
          rw [mem_foldl_finsetErase, mem_foldl_finsetErase]
          tauto
        have heq2 : pathDestroyWrite versions
            (⟨some { meta with versions := versions.foldl destroyStep meta.versions },
              versions.foldl (fun bs v => bs.erase v) s.blobs⟩ : KeyState) =
            ⟨⟨some { meta with versions := versions.foldl destroyStep (versions.foldl destroyStep meta.versions) },
              versions.foldl (fun bs v => bs.erase v) (versions.foldl (fun bs v => bs.erase v) s.blobs)⟩,
              .putMetadata :: versions.map (fun v => .deleteVersion v), false⟩ := by
          unfold pathDestroyWrite
          rw [if_neg hlen]
        rw [heq, heq2]
        show (⟨some { meta with versions := versions.foldl destroyStep (versions.foldl destroyStep meta.versions) },
            versions.foldl (fun bs v => bs.erase v) (versions.foldl (fun bs v => bs.erase v) s.blobs)⟩ : KeyState) =
          ⟨some { meta with versions := versions.foldl destroyStep meta.versions },
            versions.foldl (fun bs v => bs.erase v) s.blobs⟩
        rw [foldl_destroyStep_eq_self _ _ hall2, hbs]

/-- Witness for C7: destroying version 1 sets its flag, and destroying
again leaves the key state unchanged. -/
theorem destroy_idempotent_witness :
    (∃ meta', (pathDestroyWrite [1]
        ⟨some ⟨"k", [(1, ⟨some 0, none, false⟩)], 1, 1, some 0, some 0, 0, false, []⟩,
          {1}⟩).state.meta = some meta' ∧
      meta'.versions.lookupV 1 = some ⟨some 0, none, true⟩) ∧
    (pathDestroyWrite [1] (pathDestroyWrite [1]
        ⟨some ⟨"k", [(1, ⟨some 0, none, false⟩)], 1, 1, some 0, some 0, 0, false, []⟩,
          {1}⟩).state).state =
      (pathDestroyWrite [1]
        ⟨some ⟨"k", [(1, ⟨some 0, none, false⟩)], 1, 1, some 0, some 0, 0, false, []⟩,
          {1}⟩).state := by
  have h := destroy_idempotent [1]
    ⟨some ⟨"k", [(1, ⟨some 0, none, false⟩)], 1, 1, some 0, some 0, 0, false, []⟩, {1}⟩
  obtain ⟨ha, _hb, _hc, hd⟩ := h
  obtain ⟨meta', hm1, hm2, _⟩ := ha (by decide) _ rfl
  exact ⟨⟨meta', hm1, hm2 1 ⟨some 0, none, false⟩ (by decide) (by decide)⟩, hd⟩

mutual

/-- Specification-side depth-budgeted structure truncation (from the
claim's words): a non-empty map within the remaining budget keeps its
structure with each value truncated at budget one less; an empty map or a
map past the budget becomes a null leaf; non-map values pass through. -/
def truncateVal : Nat → JValue → JValue
  | b, .obj fields =>
    if 0 < b ∧ 0 < fields.length then .obj (truncateFields b fields) else .null
  | _, v => v

def truncateFields : Nat → List (String × JValue) → List (String × JValue)
  | _, [] => []
  | b, (k, v) :: rest => (k, truncateVal (b - 1) v) :: truncateFields b rest

end

mutual

/-- Specification-side leaf nulling (from the claim's words): keep the
map structure and replace every non-map value by null. -/
def nullifyVal : JValue → JValue
  | .obj fields => .obj (nullifyFields fields)
  | _ => .null

def nullifyFields : List (String × JValue) → List (String × JValue)
  | [] => []
  | (k, v) :: rest => (k, nullifyVal v) :: nullifyFields rest

end

theorem walkPairs_eq_truncate_nullify (fields : List (String × JValue)) (depth : Nat) :
    walkPairs fields depth =
      nullifyFields (truncateFields (maxSubkeysDepth + 1 - depth) fields) := by
  induction fields, depth using walkPairs.induct with
  | case1 depth => simp [walkPairs, truncateFields, nullifyFields]
  | case2 k inner rest depth ih1 ih2 =>
    simp only [walkPairs, truncateFields, nullifyFields, truncateVal]
    rw [ih2]
    by_cases hcond : depth + 1 ≤ maxSubkeysDepth ∧ 0 < inner.length
    · rw [if_pos hcond]
      have hb : 0 < maxSubkeysDepth + 1 - depth - 1 ∧ 0 < inner.length :=
        ⟨by omega, hcond.2⟩
      rw [if_pos hb]
      simp only [nullifyVal]
      have harg : maxSubkeysDepth + 1 - depth - 1 = maxSubkeysDepth + 1 - (depth + 1) := by
        omega
      rw [harg, ih1]
    · rw [if_neg hcond]
      have hb : ¬ (0 < maxSubkeysDepth + 1 - depth - 1 ∧ 0 < inner.length) := by
        intro hc
        exact hcond ⟨by omega, hc.2⟩
      rw [if_neg hb]
      simp only [nullifyVal]
  | case3 k v rest depth hne ih =>
    cases v with
    | obj inner => exact (hne inner rfl).elim
    | null =>
      simp only [walkPairs, truncateFields, nullifyFields, truncateVal, nullifyVal]
      rw [ih]
    | bool b =>
      simp only [walkPairs, truncateFields, nullifyFields, truncateVal, nullifyVal]
      rw [ih]
    | num n =>
      simp only [walkPairs, truncateFields, nullifyFields, truncateVal, nullifyVal]
      rw [ih]
    | str s2 =>
      simp only [walkPairs, truncateFields, nullifyFields, truncateVal, nullifyVal]
      rw [ih]
    | arr elems =>
      simp only [walkPairs, truncateFields, nullifyFields, truncateVal, nullifyVal]
      rw [ih]

theorem walkPairs_keys (fields : List (String × JValue)) (depth : Nat) :
    (walkPairs fields depth).map Prod.fst = fields.map Prod.fst := by
  induction fields, depth using walkPairs.induct with
  | case1 depth => simp [walkPairs]
  | case2 k inner rest depth ih1 ih2 => simp [walkPairs, ih2]
  | case3 k v rest depth hne ih =>
    cases v with
    | obj inner => exact (hne inner rfl).elim
    | null => simp [walkPairs, ih]
    | bool b => simp [walkPairs, ih]
    | num n => simp [walkPairs, ih]
    | str s2 => simp [walkPairs, ih]
    | arr elems => simp [walkPairs, ih]

/-- **C9.** `removeValues` returns a map with the same nested-map
structure as its input in which every non-map value is replaced by null,
with traversal capped at `maxSubkeysDepth` (100): it coincides with
first truncating the structure at the cap — an empty map, or a map nested
beyond the cap, becomes a leaf — and then nulling every non-map leaf; the
top-level key list is preserved. -/
theorem removeValues_spec (d : JObj) :
    removeValues d = nullifyFields (truncateFields maxSubkeysDepth d) ∧
    (removeValues d).map Prod.fst = d.map Prod.fst := by
  constructor
  · have h := walkPairs_eq_truncate_nullify d 1
    rw [removeValues, h, Nat.add_sub_cancel]
  · rw [removeValues]
    exact walkPairs_keys d 1

/-- **C10.** A successful `pathDataWrite` emits the new version's blob
`Put` strictly before the metadata `Put`, so every prefix of its storage
events containing the metadata write already contains the blob write (a
failure between the two leaves at most an orphan blob, never metadata
naming an unwritten version); the upgrade conversion `upgradeKey` orders
its version-1 blob `Put` before its metadata `Put` in the same way. -/
theorem version_blob_put_before_metadata :
    (∀ config key meta0 d cas now meta' v tr,
      pathDataWrite config key meta0 (some d) cas now = (.ok meta' v, tr) →
      ∃ i j : Nat, i < j ∧
        tr[i]? = some (StorageEvent.putVersion ((curOf meta0 + 1) % U64)) ∧
        tr[j]? = some StorageEvent.putMetadata ∧
        ∀ n : Nat, StorageEvent.putMetadata ∈ tr.take n →
          StorageEvent.putVersion ((curOf meta0 + 1) % U64) ∈ tr.take n) ∧
    (∀ key now,
      (upgradeKey key now).2.2 =
        [StorageEvent.putVersion 1, StorageEvent.putMetadata] ∧
      ∀ n : Nat, StorageEvent.putMetadata ∈ ((upgradeKey key now).2.2).take n →
        StorageEvent.putVersion 1 ∈ ((upgradeKey key now).2.2).take n) := by
  constructor
  · intro config key meta0 d cas now meta' v tr h
    have hcur : (meta0.getD (emptyMeta key)).currentVersion = curOf meta0 := by
      cases meta0 <;> rfl
    have htr : tr = StorageEvent.putVersion ((curOf meta0 + 1) % U64) ::
        StorageEvent.putMetadata ::
        (if ((meta0.getD (emptyMeta key)).addVersion (some now) none config.maxVersions).2 > 0
         then [StorageEvent.deleteVersion
            ((meta0.getD (emptyMeta key)).addVersion (some now) none config.maxVersions).2]
         else []) := by
      rw [← hcur]
      cases cas with
      | none =>
        by_cases hreq : config.casRequired ∨ (meta0.getD (emptyMeta key)).casRequired
        · rw [pathDataWrite] at h
          simp only [hreq, ite_true] at h
          cases h
        · rw [pathDataWrite] at h
          simp only [hreq, ite_false] at h
          have := congrArg Prod.snd h
          exact this.symm
      | some c =>
        by_cases hc : c = (meta0.getD (emptyMeta key)).currentVersion
        · rw [pathDataWrite] at h
          simp only [hc, ne_eq, not_true_eq_false, ite_false] at h
          have := congrArg Prod.snd h
          exact this.symm
        · rw [pathDataWrite] at h
          simp only [ne_eq, hc, not_false_eq_true, ite_true] at h
          cases h
    refine ⟨0, 1, Nat.zero_lt_one, ?_, ?_, ?_⟩
    · rw [htr]
      simp
    · rw [htr]
      simp
    · intro n hn
      rw [htr] at hn ⊢
      match n with
      | 0 => simp at hn
      | 1 => simp [List.take] at hn
      | Nat.succ (Nat.succ l) => simp [List.take]
  · intro key now
    have harith : (1 : Nat) % U64 = 1 := by decide
    have ht : (upgradeKey key now).2.2 =
        [StorageEvent.putVersion 1, StorageEvent.putMetadata] := by
      simp [upgradeKey, emptyMeta, harith]
    refine ⟨ht, ?_⟩
    intro n hn
    rw [ht] at hn ⊢
    match n with
    | 0 => simp at hn
    | 1 => simp [List.take] at hn
    | Nat.succ (Nat.succ l) => simp [List.take]

/-- Witness for C10: the first write of key `"k"` puts the version-1 blob
at event index 0 and the metadata at index 1. -/
theorem version_blob_put_before_metadata_witness :
    ∃ i j : Nat, i < j ∧
      (pathDataWrite ⟨0, false, 0⟩ "k" none (some []) none 0).2[i]? =
        some (StorageEvent.putVersion 1) ∧
      (pathDataWrite ⟨0, false, 0⟩ "k" none (some []) none 0).2[j]? =
        some StorageEvent.putMetadata := by
  have hw := version_blob_put_before_metadata.1 ⟨0, false, 0⟩ "k" none [] none 0
    ((emptyMeta "k").addVersion (some 0) none 0).1
    ((emptyMeta "k").addVersion (some 0) none 0).1.currentVersion
    [.putVersion 1, .putMetadata] (by decide)
  obtain ⟨i, j, hij, h1, h2, _⟩ := hw
  refine ⟨i, j, hij, ?_, ?_⟩
  · have he : (pathDataWrite ⟨0, false, 0⟩ "k" none (some []) none 0).2 =
        [StorageEvent.putVersion 1, StorageEvent.putMetadata] := by decide
    rw [he]
    exact h1
  · have he : (pathDataWrite ⟨0, false, 0⟩ "k" none (some []) none 0).2 =
        [StorageEvent.putVersion 1, StorageEvent.putMetadata] := by decide
    rw [he]
    exact h2

theorem addVersion_currentVersion (k : KeyMetadata) (ct dt : Option Int) (cfg : Nat) :
    (k.addVersion ct dt cfg).1.currentVersion = (k.currentVersion + 1) % U64 := by
  simp only [KeyMetadata.addVersion]
  split_ifs <;> rfl

theorem addVersion_mem (k : KeyMetadata) (ct dt : Option Int) (cfg : Nat)
    (kv : Nat × VersionMetadata) (h : kv ∈ (k.addVersion ct dt cfg).1.versions) :
    kv = ((k.currentVersion + 1) % U64, ⟨ct, dt, false⟩) ∨ kv ∈ k.versions := by
  simp only [KeyMetadata.addVersion] at h
  split_ifs at h <;> dsimp only at h <;>
    first
      | (rw [VMap.mem_foldl_eraseV, VMap.mem_insertV] at h
         rcases h.1 with h1 | h1
         · exact Or.inl h1
         · exact Or.inr h1.1)
      | (rw [VMap.mem_insertV] at h
         rcases h with h1 | h1
         · exact Or.inl h1
         · exact Or.inr h1.1)

theorem keysOf_archiveStep (now : Int) (m : VMap) (w : Nat) :
    (archiveStep now m w).keysOf = m.keysOf := by
  unfold archiveStep
  cases m.lookupV w with
  | none => rfl
  | some lv =>
    by_cases hdes : lv.destroyed = true
    · simp [hdes]
    · rw [Bool.not_eq_true] at hdes
      by_cases hdel : deletedAt lv.deletionTime now = true
      · simp [hdes, hdel]
      · rw [Bool.not_eq_true] at hdel
        simp [hdes, hdel, VMap.keysOf_updateV]

theorem keysOf_unarchiveStep (m : VMap) (w : Nat) :
    (unarchiveStep m w).keysOf = m.keysOf := by
  unfold unarchiveStep
  cases m.lookupV w with
  | none => rfl
  | some lv =>
    by_cases hdes : lv.destroyed = true
    · simp [hdes]
    · rw [Bool.not_eq_true] at hdes
      simp [hdes, VMap.keysOf_updateV]

theorem keysOf_destroyStep (m : VMap) (w : Nat) :
    (destroyStep m w).keysOf = m.keysOf := by
  unfold destroyStep
  cases m.lookupV w with
  | none => rfl
  | some lv =>
    by_cases hdes : lv.destroyed = true
    · simp [hdes]
    · rw [Bool.not_eq_true] at hdes
      simp [hdes, VMap.keysOf_updateV]

theorem keysOf_foldl_archiveStep (now : Int) (l : List Nat) (m : VMap) :
    (l.foldl (archiveStep now) m).keysOf = m.keysOf := by
  induction l generalizing m with
  | nil => rfl
  | cons x rest ih => rw [List.foldl_cons, ih, keysOf_archiveStep]

theorem keysOf_foldl_unarchiveStep (l : List Nat) (m : VMap) :
    (l.foldl unarchiveStep m).keysOf = m.keysOf := by
  induction l generalizing m with
  | nil => rfl
  | cons x rest ih => rw [List.foldl_cons, ih, keysOf_unarchiveStep]

theorem keysOf_foldl_destroyStep (l : List Nat) (m : VMap) :
    (l.foldl destroyStep m).keysOf = m.keysOf := by
  induction l generalizing m with
  | nil => rfl
  | cons x rest ih => rw [List.foldl_cons, ih, keysOf_destroyStep]

/-- The version-number invariant: every version number in the map is at
most `CurrentVersion`. -/
def keysBounded (m : Option KeyMetadata) : Prop :=
  ∀ meta, m = some meta → ∀ kv ∈ meta.versions, kv.1 ≤ meta.currentVersion

theorem keysBounded_of_keysOf (meta meta' : KeyMetadata)
    (hk : meta'.versions.keysOf = meta.versions.keysOf)
    (hc : meta'.currentVersion = meta.currentVersion)
    (hb : keysBounded (some meta)) : keysBounded (some meta') := by
  intro meta2 hm2 kv hkv
  cases hm2
  have hmem : kv.1 ∈ meta'.versions.keysOf := by
    rw [VMap.mem_keysOf]
    exact ⟨kv.2, hkv⟩
  rw [hk, VMap.mem_keysOf] at hmem
  obtain ⟨v0, hv0⟩ := hmem
  rw [hc]
  exact hb meta rfl (kv.1, v0) hv0

theorem addVersion_getD_facts (config : Configuration) (key : String)
    (m : Option KeyMetadata) (now : Int)
    (hcur : curOf m + 1 < U64) (hb : keysBounded m) :
    ((m.getD (emptyMeta key)).addVersion (some now) none config.maxVersions).1.currentVersion
      = curOf m + 1 ∧
    keysBounded
      (some ((m.getD (emptyMeta key)).addVersion (some now) none config.maxVersions).1) ∧
    (∀ meta, m = some meta → ∀ kv ∈ meta.versions, kv.1 < curOf m + 1) := by
  cases m with
  | none =>
    simp only [Option.getD_none]
    have h1 : ((emptyMeta key).addVersion (some now) none
        config.maxVersions).1.currentVersion = curOf none + 1 := by
      rw [addVersion_currentVersion]
      exact Nat.mod_eq_of_lt hcur
    refine ⟨h1, ?_, fun meta h => by cases h⟩
    intro meta2 hm2 kv hkv
    cases hm2
    rw [h1]
    rcases addVersion_mem _ _ _ _ kv hkv with heq | hmem
    · have hkv1 : kv.1 = ((emptyMeta key).currentVersion + 1) % U64 :=
        congrArg Prod.fst heq
      rw [hkv1]
      exact le_of_eq (Nat.mod_eq_of_lt hcur)
    · simp [emptyMeta] at hmem
  | some meta =>
    simp only [Option.getD_some]
    have hcur2 : meta.currentVersion + 1 < U64 := hcur
    have h1 : (meta.addVersion (some now) none
        config.maxVersions).1.currentVersion = meta.currentVersion + 1 := by
      rw [addVersion_currentVersion]
      exact Nat.mod_eq_of_lt hcur2
    refine ⟨h1, ?_, ?_⟩
    · intro meta2 hm2 kv hkv
      cases hm2
      rw [h1]
      rcases addVersion_mem _ _ _ _ kv hkv with heq | hmem
      · have hkv1 : kv.1 = (meta.currentVersion + 1) % U64 := congrArg Prod.fst heq
        rw [hkv1]
        exact le_of_eq (Nat.mod_eq_of_lt hcur2)
      · have hle := hb meta rfl kv hmem
        omega
    · intro meta3 hm3 kv hkv
      cases hm3
      have hle := hb meta rfl kv hkv
      have hcc : curOf (some meta) = meta.currentVersion := rfl
      omega

theorem pathDataDelete_meta_facts (m : Option KeyMetadata) (now : Int)
    (hb : keysBounded m) :
    curOf (pathDataDelete m now).1 = curOf m ∧ keysBounded (pathDataDelete m now).1 := by
  cases m with
  | none => exact ⟨rfl, hb⟩
  | some meta =>
    simp only [pathDataDelete]
    cases hl : meta.versions.lookupV meta.currentVersion with
    | none => exact ⟨by simp, hb⟩
    | some lv =>
      by_cases hdes : lv.destroyed = true
      · simp only [hdes, ite_true]
        exact ⟨by simp, hb⟩
      · rw [Bool.not_eq_true] at hdes
        by_cases hdel : deletedAt lv.deletionTime now = true
        · simp only [hdes, hdel, Bool.false_eq_true, ite_false, ite_true]
          exact ⟨by simp, hb⟩
        · rw [Bool.not_eq_true] at hdel
          simp only [hdes, hdel, Bool.false_eq_true, ite_false]
          refine ⟨by simp [curOf], ?_⟩
          exact keysBounded_of_keysOf meta _ (VMap.keysOf_updateV _ _ _) rfl hb

theorem applyOp_noChange (config : Configuration) (key : String) (op : KVOp)
    (m : Option KeyMetadata) (hb : keysBounded m)
    (h : applyOp config key op m = (m, none)) :
    curOf m ≤ curOf (applyOp config key op m).1 ∧
    ((applyOp config key op m).2 = none → curOf (applyOp config key op m).1 = curOf m) ∧
    (∀ v, (applyOp config key op m).2 = some v →
      curOf (applyOp config key op m).1 = curOf m + 1 ∧ v = curOf m + 1 ∧
      ∀ meta, m = some meta → ∀ kv ∈ meta.versions, kv.1 < v) ∧
    keysBounded (applyOp config key op m).1 := by
  rw [h]
  exact ⟨le_refl _, fun _ => rfl, fun v hv => by simp at hv, hb⟩

theorem applyOp_metaOnly (config : Configuration) (key : String) (op : KVOp)
    (m m' : Option KeyMetadata) (hb : keysBounded m') (hc : curOf m' = curOf m)
    (h : applyOp config key op m = (m', none)) :
    curOf m ≤ curOf (applyOp config key op m).1 ∧
    ((applyOp config key op m).2 = none → curOf (applyOp config key op m).1 = curOf m) ∧
    (∀ v, (applyOp config key op m).2 = some v →
      curOf (applyOp config key op m).1 = curOf m + 1 ∧ v = curOf m + 1 ∧
      ∀ meta, m = some meta → ∀ kv ∈ meta.versions, kv.1 < v) ∧
    keysBounded (applyOp config key op m).1 := by
  rw [h]
  exact ⟨le_of_eq hc.symm, fun _ => hc, fun v hv => by simp at hv, hb⟩

theorem applyOp_writeOk (config : Configuration) (key : String) (op : KVOp)
    (m : Option KeyMetadata) (meta1 : KeyMetadata)
    (hb1 : keysBounded (some meta1)) (hc1 : meta1.currentVersion = curOf m + 1)
    (hlt : ∀ meta, m = some meta → ∀ kv ∈ meta.versions, kv.1 < curOf m + 1)
    (h : applyOp config key op m = (some meta1, some meta1.currentVersion)) :
    curOf m ≤ curOf (applyOp config key op m).1 ∧
    ((applyOp config key op m).2 = none → curOf (applyOp config key op m).1 = curOf m) ∧
    (∀ v, (applyOp config key op m).2 = some v →
      curOf (applyOp config key op m).1 = curOf m + 1 ∧ v = curOf m + 1 ∧
      ∀ meta, m = some meta → ∀ kv ∈ meta.versions, kv.1 < v) ∧
    keysBounded (applyOp config key op m).1 := by
  rw [h]
  dsimp only
  have hcc : curOf (some meta1) = meta1.currentVersion := rfl
  refine ⟨by omega, fun hn => by simp at hn, ?_, hb1⟩
  intro v hv
  have hveq : v = meta1.currentVersion := (Option.some.inj hv).symm
  refine ⟨by omega, by omega, ?_⟩
  intro meta hm kv hkv
  have := hlt meta hm kv hkv
  omega

theorem applyOp_step (config : Configuration) (key : String) (op : KVOp)
    (m : Option KeyMetadata) (hcur : curOf m + 1 < U64) (hb : keysBounded m) :
    curOf m ≤ curOf (applyOp config key op m).1 ∧
    ((applyOp config key op m).2 = none → curOf (applyOp config key op m).1 = curOf m) ∧
    (∀ v, (applyOp config key op m).2 = some v →
      curOf (applyOp config key op m).1 = curOf m + 1 ∧ v = curOf m + 1 ∧
      ∀ meta, m = some meta → ∀ kv ∈ meta.versions, kv.1 < v) ∧
    keysBounded (applyOp config key op m).1 := by
  cases op with
  | dataWrite dataArg casArg now =>
    obtain ⟨hv1, hv2, hv3⟩ := addVersion_getD_facts config key m now hcur hb
    cases dataArg with
    | none => exact applyOp_noChange config key _ m hb rfl
    | some d =>
      cases casArg with
      | none =>
        by_cases hreq : config.casRequired ∨ (m.getD (emptyMeta key)).casRequired
        · refine applyOp_noChange config key _ m hb ?_
          simp only [applyOp, pathDataWrite, hreq, ite_true]
        · refine applyOp_writeOk config key _ m _ hv2 hv1 hv3 ?_
          simp only [applyOp, pathDataWrite, hreq, ite_false]
      | some c =>
        by_cases hc : c = (m.getD (emptyMeta key)).currentVersion
        · refine applyOp_writeOk config key _ m _ hv2 hv1 hv3 ?_
          simp only [applyOp, pathDataWrite, hc, ne_eq, not_true_eq_false, ite_false]
        · refine applyOp_noChange config key _ m hb ?_
          simp only [applyOp, pathDataWrite, ne_eq, hc, not_false_eq_true, ite_true]
  | dataRead verParam now => exact applyOp_noChange config key _ m hb rfl
  | subkeysRead verParam now => exact applyOp_noChange config key _ m hb rfl
  | dataDelete now =>
    obtain ⟨hd1, hd2⟩ := pathDataDelete_meta_facts m now hb
    exact applyOp_metaOnly config key _ m _ hd2 hd1 rfl
  | archiveVersions versions now =>
    by_cases hlen : versions.length = 0
    · refine applyOp_noChange config key _ m hb ?_
      simp only [applyOp, pathArchiveWrite, hlen, ite_true]
    · cases m with
      | none =>
        refine applyOp_noChange config key _ none hb ?_
        simp only [applyOp, pathArchiveWrite, hlen, ite_false]
      | some meta =>
        refine applyOp_metaOnly config key _ (some meta)
          (some { meta with versions := versions.foldl (archiveStep now) meta.versions })
          (keysBounded_of_keysOf meta _ (keysOf_foldl_archiveStep now versions _) rfl hb)
          rfl ?_
        simp only [applyOp, pathArchiveWrite, hlen, ite_false]
  | unarchiveVersions versions =>
    by_cases hlen : versions.length = 0
    · refine applyOp_noChange config key _ m hb ?_
      simp only [applyOp, pathUnarchiveWrite, hlen, ite_true]
    · cases m with
      | none =>
        refine applyOp_noChange config key _ none hb ?_
        simp only [applyOp, pathUnarchiveWrite, hlen, ite_false]
      | some meta =>
        refine applyOp_metaOnly config key _ (some meta)
          (some { meta with versions := versions.foldl unarchiveStep meta.versions })
          (keysBounded_of_keysOf meta _ (keysOf_foldl_unarchiveStep versions _) rfl hb)
          rfl ?_
        simp only [applyOp, pathUnarchiveWrite, hlen, ite_false]
  | destroyVersions versions =>
    by_cases hlen : versions.length = 0
    · refine applyOp_noChange config key _ m hb ?_
      simp only [applyOp, pathDestroyWrite, hlen, ite_true]
    · cases m with
      | none =>
        refine applyOp_noChange config key _ none hb ?_
        simp only [applyOp, pathDestroyWrite, hlen, ite_false]
      | some meta =>
        refine applyOp_metaOnly config key _ (some meta)
          (some { meta with versions := versions.foldl destroyStep meta.versions })
          (keysBounded_of_keysOf meta _ (keysOf_foldl_destroyStep versions _) rfl hb)
          rfl ?_
        simp only [applyOp, pathDestroyWrite, hlen, ite_false]

theorem runOps_facts (config : Configuration) (key : String)
    (ops : List KVOp) (m : Option KeyMetadata)
    (hcur : curOf m + ops.length < U64) (hb : keysBounded m) :
    curOf m ≤ curOf (runOps config key ops m) ∧
    curOf (runOps config key ops m) ≤ curOf m + ops.length ∧
    keysBounded (runOps config key ops m) := by
  induction ops generalizing m with
  | nil =>
    refine ⟨le_refl _, ?_, ?_⟩
    · simp [runOps]
    · simpa [runOps] using hb
  | cons op rest ih =>
    simp only [List.length_cons] at hcur ⊢
    obtain ⟨hle, hnone, hsome, hkb⟩ := applyOp_step config key op m (by omega) hb
    have hub : curOf (applyOp config key op m).1 ≤ curOf m + 1 := by
      cases hsn : (applyOp config key op m).2 with
      | none => rw [hnone hsn]; omega
      | some v => rw [(hsome v hsn).1]
    have hrw : runOps config key (op :: rest) m
        = runOps config key rest (applyOp config key op m).1 := rfl
    obtain ⟨i1, i2, i3⟩ := ih (applyOp config key op m).1 (by omega) hkb
    rw [hrw]
    exact ⟨le_trans hle i1, by omega, i3⟩

/-- C3: Over any sequence of operations on a key, `CurrentVersion` never
decreases, and grows by at most the number of operations; at every
intermediate state, an operation whose data write does not succeed leaves
`CurrentVersion` unchanged, while a successful data write sets it to
exactly the previous value plus one and returns that number as the
response's `version` field; the assigned number is strictly greater than
every version number present in the map at that point, so numbers removed
by trim or destroy are never assigned again. -/
theorem currentVersion_monotone (config : Configuration) (key : String)
    (ops : List KVOp) (m : Option KeyMetadata)
    (hcur : curOf m + ops.length < U64) (hb : keysBounded m) :
    (curOf m ≤ curOf (runOps config key ops m) ∧
      curOf (runOps config key ops m) ≤ curOf m + ops.length) ∧
    ∀ pre op post, ops = pre ++ op :: post →
      curOf (runOps config key pre m) ≤
        curOf (applyOp config key op (runOps config key pre m)).1 ∧
      ((applyOp config key op (runOps config key pre m)).2 = none →
        curOf (applyOp config key op (runOps config key pre m)).1 =
          curOf (runOps config key pre m)) ∧
      ∀ v, (applyOp config key op (runOps config key pre m)).2 = some v →
        curOf (applyOp config key op (runOps config key pre m)).1 =
          curOf (runOps config key pre m) + 1 ∧
        v = curOf (runOps config key pre m) + 1 ∧
        ∀ meta0, runOps config key pre m = some meta0 →
          ∀ kv ∈ meta0.versions, kv.1 < v := by
  refine ⟨⟨(runOps_facts config key ops m hcur hb).1,
          (runOps_facts config key ops m hcur hb).2.1⟩, ?_⟩
  intro pre op post heq
  subst heq
  have hlen : (pre ++ op :: post).length = pre.length + post.length + 1 := by
    simp [List.length_append]
    omega
  rw [hlen] at hcur
  obtain ⟨p1, p2, p3⟩ := runOps_facts config key pre m (by omega) hb
  have hmid : curOf (runOps config key pre m) + 1 < U64 := by omega
  exact ⟨(applyOp_step config key op _ hmid p3).1,
         (applyOp_step config key op _ hmid p3).2.1,
         (applyOp_step config key op _ hmid p3).2.2.1⟩

theorem currentVersion_monotone_witness :
    (curOf (none : Option KeyMetadata) +
        [KVOp.dataWrite (some []) none 0, KVOp.dataDelete 1].length < U64 ∧
      keysBounded (none : Option KeyMetadata)) ∧
    (curOf (none : Option KeyMetadata) ≤
        curOf (runOps ⟨0, false, 0⟩ "k"
          [KVOp.dataWrite (some []) none 0, KVOp.dataDelete 1] none) ∧
      curOf (runOps ⟨0, false, 0⟩ "k"
          [KVOp.dataWrite (some []) none 0, KVOp.dataDelete 1] none) ≤
        curOf (none : Option KeyMetadata) + 2) := by
  refine ⟨⟨by decide, by intro meta0 h; cases h⟩, ?_⟩
  have h := currentVersion_monotone ⟨0, false, 0⟩ "k"
    [KVOp.dataWrite (some []) none 0, KVOp.dataDelete 1] none
    (by decide) (by intro meta0 h; cases h)
  simpa using h.1
